import Mathlib

/-!
Verification of the spectral statistics core (`spectral/algorithms/algorithms.py`)
against its natural-language specification.

The numeric code is shallowly embedded over exact rationals `ℚ`:

* a sample ("pixel vector") of `B` bands is a function `Fin B → ℚ`;
* a numpy 2-d array is a Mathlib `Matrix (Fin m) (Fin n) ℚ`;
* the irrational primitives that the code delegates to LAPACK / libm
  (`numpy.linalg.eig`, `numpy.linalg.eigvals`, `math.sqrt`, `math.log`) are
  passed in as explicit oracle parameters, and theorems that depend on their
  numeric contract state that contract as a hypothesis on the oracle values
  actually consumed;
* `numpy.linalg.inv` raises `LinAlgError` exactly on singular input; it is
  embedded as a guard on `Matrix.det` together with the computable inverse
  `matInv A = (A.det)⁻¹ • A.adjugate`, which agrees with the true inverse on
  every invertible matrix.

Definitions come first, then the theorems.
-/

namespace Spectral

open Matrix

/-- A length-`B` band vector (one sample / pixel spectrum). -/
abbrev Vec (B : ℕ) := Fin B → ℚ

/-- A `m × n` rational matrix. -/
abbrev Mat (m n : ℕ) := Matrix (Fin m) (Fin n) ℚ

/-- `numpy.dot(x, transpose(x))` for a column vector `x`:
the outer product `u vᵗ`. -/
def outerProd {B : ℕ} (u v : Vec B) : Mat B B :=
  fun i j => u i * v j

/-- Computable matrix inverse over `ℚ`: `(det A)⁻¹ • adjugate A`.
For `A.det ≠ 0` this is the two-sided inverse of `A`; `numpy.linalg.inv`
raises `LinAlgError` exactly when the matrix is singular. -/
def matInv {n : ℕ} (A : Mat n n) : Mat n n :=
  (A.det)⁻¹ • A.adjugate

/-! ## `mean_cov` (the StatsAccumulator)

`mean_cov` makes one pass over the sample source accumulating
`count`, `sumX` and `sumX2 = Σ x·xᵗ`, then finalizes
`mean = sumX / count` and
`cov = (sumX2 − sumX·sumXᵗ / count) / (count − 1)`.
The sample source is embedded as the list of vectors it yields. -/

/-- The accumulation loop of `mean_cov`:
`count = 0; sumX = 0; sumX2 = 0; for x in it: count += 1; sumX += x; sumX2 += x·xᵗ`. -/
def mcFold {B : ℕ} (xs : List (Vec B)) : ℕ × Vec B × Mat B B :=
  xs.foldl (fun acc x => (acc.1 + 1, acc.2.1 + x, acc.2.2 + outerProd x x)) (0, 0, 0)

/-- `mean_cov`: returns `(mean, cov, count)` exactly as the source finalizes them.
The divisions `/ count` and `/ (count − 1)` are the source's float divisions;
over `ℚ` a division by zero denotes `0` where numpy produces non-finite values
(the function raises no error in either model). -/
def mean_cov {B : ℕ} (xs : List (Vec B)) : Vec B × Mat B B × ℕ :=
  let acc := mcFold xs
  let count := acc.1
  let sumX := acc.2.1
  let sumX2 := acc.2.2
  let mean : Vec B := fun i => sumX i / (count : ℚ)
  let cov : Mat B B := ((count : ℚ) - 1)⁻¹ • (sumX2 - (count : ℚ)⁻¹ • outerProd sumX sumX)
  (mean, cov, count)

/-! ## `logDeterminant` and the Gaussian statistics of a training class -/

/-- `logDeterminant(x) = sum(log([e for e in eigvals(x) if e > 0]))`.
`eigvals` (numpy's eigenvalue routine) and `log` (libm) are oracle
parameters; `sum([]) = 0` as in Python. -/
def logDeterminant {B : ℕ} (log : ℚ → ℚ) (eigvals : Mat B B → List ℚ)
    (x : Mat B B) : ℚ :=
  (((eigvals x).filter (fun e => decide (0 < e))).map log).sum

/-- The `stats` record populated by `TrainingClass.calcStatistics`. -/
structure GaussianStats (B : ℕ) where
  mean : Vec B
  cov : Mat B B
  invCov : Mat B B
  logDetCov : ℚ
  numSamples : ℕ
deriving DecidableEq, Inhabited

/-- `numpy.linalg.inv` raises `LinAlgError` on singular input. -/
inductive StatsError
  | singularCovariance
deriving DecidableEq

/-- `TrainingClass.calcStatistics`: runs `mean_cov` over the class's samples,
then stores `invCov = inv(cov)` (raising on a singular covariance) and
`logDetCov = logDeterminant(cov)` (which the source computes unconditionally
through the positive-eigenvalue fallback, never through `det` directly). -/
def calcStatistics {B : ℕ} (log : ℚ → ℚ) (eigvals : Mat B B → List ℚ)
    (xs : List (Vec B)) : Except StatsError (GaussianStats B) :=
  let r := mean_cov xs
  if (r.2.1).det ≠ 0 then
    .ok { mean := r.1, cov := r.2.1, invCov := matInv r.2.1,
          logDetCov := logDeterminant log eigvals r.2.1, numSamples := r.2.2 }
  else
    .error .singularCovariance

/-- The mutable state of a `TrainingClass` that `transform` touches:
its cached statistics, its `numBands`, and the image (sample source)
it is bound to.  The image is the list of pixel vectors. -/
structure TrainingClassState (B : ℕ) where
  stats : GaussianStats B
  numBands : ℕ
  image : List (Vec B)
deriving DecidableEq, Inhabited

/-- The state in which `TrainingClass.transform` leaves the object when
`inv(cov')` raises: the exception propagates after `stats.mean` and
`stats.cov` have already been reassigned, while `invCov`, `logDetCov`,
`numBands` and `image` still hold their prior values. -/
structure TransformFailed (B C : ℕ) where
  mean : Vec C
  cov : Mat C C
  invCov : Mat B B
  logDetCov : ℚ
  numBands : ℕ
  image : List (Vec B)
deriving DecidableEq

/-- `TrainingClass.transform(X)`, statement by statement:
```
self.stats.mean = dot(X, self.stats.mean)
self.stats.cov = dot(X, dot(self.stats.cov, transpose(X)))
self.stats.invCov = inv(self.stats.cov)        -- may raise LinAlgError
try: self.stats.logDetCov = math.log(det(self.stats.cov))
except: self.stats.logDetCov = logDeterminant(self.stats.cov)
self.numBands = X.shape[0]
self.image = transformImage(X, self.image)
```
`math.log` raises unless its argument is positive, so the stored value is
`log (det cov')` when `0 < det cov'` and the eigenvalue fallback otherwise.
On the error path the partially mutated state is returned. -/
def TrainingClassState.transform {B C : ℕ} (log : ℚ → ℚ)
    (eigvals : Mat C C → List ℚ) (tc : TrainingClassState B) (X : Mat C B) :
    Except (TransformFailed B C) (TrainingClassState C) :=
  let mean2 : Vec C := X.mulVec tc.stats.mean
  let cov2 : Mat C C := X * tc.stats.cov * Xᵀ
  if cov2.det ≠ 0 then
    .ok { stats :=
            { mean := mean2, cov := cov2, invCov := matInv cov2,
              logDetCov :=
                if 0 < cov2.det then log cov2.det
                else logDeterminant log eigvals cov2,
              numSamples := tc.stats.numSamples },
          numBands := C,
          image := tc.image.map (fun px => X.mulVec px) }
  else
    .error { mean := mean2, cov := cov2, invCov := tc.stats.invCov,
             logDetCov := tc.stats.logDetCov, numBands := tc.numBands,
             image := tc.image }

/-! ## Bhattacharyya distance -/

/-- `bDistanceTerms(a, b)`: the linear and quadratic terms of the
Bhattacharyya distance between two classes' cached Gaussian statistics. -/
def bDistanceTerms {B : ℕ} (log : ℚ → ℚ) (eigvals : Mat B B → List ℚ)
    (a b : GaussianStats B) : ℚ × ℚ :=
  let m : Vec B := a.mean - b.mean
  let avgCov : Mat B B := ((1 : ℚ) / 2) • (a.cov + b.cov)
  let linTerm : ℚ := (1 / 8) * Matrix.dotProduct m ((matInv avgCov).mulVec m)
  let quadTerm : ℚ :=
    (1 / 2) * (logDeterminant log eigvals avgCov
               - (1 / 2) * a.logDetCov - (1 / 2) * b.logDetCov)
  (linTerm, quadTerm)

/-- `bhattacharyyaDistance(a, b) = ` sum of the two `bDistanceTerms`. -/
def bhattacharyyaDistance {B : ℕ} (log : ℚ → ℚ) (eigvals : Mat B B → List ℚ)
    (a b : GaussianStats B) : ℚ :=
  (bDistanceTerms log eigvals a b).1 + (bDistanceTerms log eigvals a b).2

/-! ## `reduceEigenvectors` -/

/-- `numpy.cumsum`: partial sums, `cumsum L ! i = (L.take (i+1)).sum`. -/
def cumsum (L : List ℚ) : List ℚ :=
  (List.range L.length).map (fun i => (L.take (i + 1)).sum)

/-- The value of the loop variable `i` after
`for i in range(len(L)):  if cumEig[i] / sum >= fraction: break`:
the first index whose prefix ratio reaches `fraction`, or the final index
`len(L) - 1` when the loop runs to completion. -/
def breakIdx (c : List ℚ) (total fraction : ℚ) : ℕ :=
  match c.findIdx? (fun v => decide (fraction ≤ v / total)) with
  | some i => i
  | none => c.length - 1

/-- `reduceEigenvectors(L, V, fraction)`: truncate the eigenvalue /
eigenvector pairs at the break index, except that a break at the last index
(or no break) returns the input unreduced. -/
def reduceEigenvectors {B : ℕ} (L : List ℚ) (V : List (Vec B))
    (fraction : ℚ) : List ℚ × List (Vec B) :=
  let cumEig := cumsum L
  let total := cumEig.getLastD 0
  let i := breakIdx cumEig total fraction
  if i = L.length - 1 then (L, V)
  else (L.take (i + 1), V.take (i + 1))

/-! ## `linearDiscriminant` (Fisher LDA)

A class of the `TrainingClassSet` enters the computation through
`s.size()` and `s.stats.mean`, `s.stats.cov` (statistics are assumed
valid, as the claims do).  `numpy.linalg.eig` is an oracle parameter
returning `(vals, vecs)` with the eigenvectors in the *columns* of
`vecs`; `math.sqrt` is an oracle parameter `sqrtQ`. -/

/-- The data of one training class as consumed by `linearDiscriminant`. -/
structure ClassStats (B : ℕ) where
  size : ℕ
  mean : Vec B
  cov : Mat B B
deriving DecidableEq

/-- `N`: total number of training pixels over all classes. -/
def ldaN {B : ℕ} (cs : List (ClassStats B)) : ℕ :=
  (cs.map (fun s => s.size)).sum

/-- The sample-count-weighted grand mean `Σ size·mean / N`. -/
def ldaMean {B : ℕ} (cs : List (ClassStats B)) : Vec B :=
  ((ldaN cs : ℚ))⁻¹ • (cs.map (fun s => (s.size : ℚ) • s.mean)).sum

/-- Within-class covariance `Cw = Σ (size − 1)·cov / N`. -/
def ldaCovW {B : ℕ} (cs : List (ClassStats B)) : Mat B B :=
  ((ldaN cs : ℚ))⁻¹ • (cs.map (fun s => ((s.size : ℚ) - 1) • s.cov)).sum

/-- Between-class covariance `Cb = Σ size·(mean − grandMean)(mean − grandMean)ᵗ / N`. -/
def ldaCovB {B : ℕ} (cs : List (ClassStats B)) : Mat B B :=
  ((ldaN cs : ℚ))⁻¹ •
    (cs.map (fun s =>
      (s.size : ℚ) • outerProd (s.mean - ldaMean cs) (s.mean - ldaMean cs))).sum

/-- `rank = len(classes) - 1`. -/
def ldaRank {B : ℕ} (cs : List (ClassStats B)) : ℕ :=
  cs.length - 1

/-- The matrix `inv(Cw) * Cb` handed to `numpy.linalg.eig`. -/
def ldaEigMat {B : ℕ} (cs : List (ClassStats B)) : Mat B B :=
  matInv (ldaCovW cs) * ldaCovB cs

/-- `vals = vals[:rank]; vecs = transpose(vecs)[:rank, :]`: the first
`rank` eigenvalues, and the first `rank` rows of the transposed
eigenvector matrix (i.e. the first `rank` eigen-columns). -/
def ldaRawPairs {B : ℕ} (eig : Mat B B → Vec B × Mat B B)
    (cs : List (ClassStats B)) : List ℚ × List (Vec B) :=
  let r := eig (ldaEigMat cs)
  ((List.ofFn r.1).take (ldaRank cs),
   (List.ofFn (fun i => (r.2)ᵀ i)).take (ldaRank cs))

/-- The rescaling loop: `vecs[i, :] /= sqrt(d[i])` with
`d = diagonal(vecs · Cw · vecsᵗ)`, i.e. `d[i] = vᵢ ⬝ (Cw ⬝ vᵢ)`. -/
def ldaOut {B : ℕ} (eig : Mat B B → Vec B × Mat B B) (sqrtQ : ℚ → ℚ)
    (cs : List (ClassStats B)) : List ℚ × List (Vec B) :=
  let p := ldaRawPairs eig cs
  (p.1, p.2.map (fun v =>
    (sqrtQ (Matrix.dotProduct v ((ldaCovW cs).mulVec v)))⁻¹ • v))

/-- `linearDiscriminant(classes) = (L, V, Cb, Cw)`. -/
def linearDiscriminant {B : ℕ} (eig : Mat B B → Vec B × Mat B B)
    (sqrtQ : ℚ → ℚ) (cs : List (ClassStats B)) :
    (List ℚ × List (Vec B)) × Mat B B × Mat B B :=
  (ldaOut eig sqrtQ cs, ldaCovB cs, ldaCovW cs)

/-! ## `orthogonalize` (Gram-Schmidt)

The source transposes the `M × N` input so that the vectors are the
*columns* of `basis`; we represent `basis` directly as a function
`Fin M → Vec N` from column index to column.  Under that representation
the initial `basis = transpose(vecs)` and the final
`return transpose(basis)` are both the identity, so the input rows and
the output rows share the type of `basis`.  `math.sqrt` is the oracle
parameter `sqrtQ`. -/

/-- `w / sqrt(dot(w, w))`. -/
def nrm {N : ℕ} (sqrtQ : ℚ → ℚ) (w : Vec N) : Vec N :=
  (sqrtQ (Matrix.dotProduct w w))⁻¹ • w

/-- `U = basis[:, :i]`: the columns before `i`, as an `N × i` matrix. -/
def gsU {M N : ℕ} (basis : Fin M → Vec N) (i : Fin M) :
    Matrix (Fin N) (Fin i.val) ℚ :=
  fun r c => basis ⟨c.val, lt_trans c.isLt i.isLt⟩ r

/-- The projection `P = I − U · (UᵗU)⁻¹ · Uᵗ` built in the loop body. -/
def gsP {M N : ℕ} (basis : Fin M → Vec N) (i : Fin M) : Mat N N :=
  1 - gsU basis i * matInv ((gsU basis i)ᵀ * gsU basis i) * (gsU basis i)ᵀ

/-- One iteration of the loop:
`v = basis[:, i] / sqrt(dot(...)); basis[:, i] = P v; basis[:, i] /= sqrt(dot(...))`. -/
def gsStep {M N : ℕ} (sqrtQ : ℚ → ℚ) (basis : Fin M → Vec N) (i : Fin M) :
    Fin M → Vec N :=
  Function.update basis i (nrm sqrtQ ((gsP basis i).mulVec (nrm sqrtQ (basis i))))

/-- The `start == 0` seeding: `basis[:, 0] /= sqrt(dot(basis[:, 0], basis[:, 0]))`
(for `M = 0` the source raises an `IndexError` here; the claims concern
non-empty inputs). -/
def gsSeed {M N : ℕ} (sqrtQ : ℚ → ℚ) (vecs : Fin M → Vec N) : Fin M → Vec N :=
  if h : 0 < M then Function.update vecs ⟨0, h⟩ (nrm sqrtQ (vecs ⟨0, h⟩)) else vecs

/-- The basis after the seeding and the first `k` loop iterations
(processing columns `1 .. k`), for the `start = 0` entry. -/
def gsAt {M N : ℕ} (sqrtQ : ℚ → ℚ) (vecs : Fin M → Vec N) (k : ℕ) :
    Fin M → Vec N :=
  (((List.finRange M).drop 1).take k).foldl (gsStep sqrtQ) (gsSeed sqrtQ vecs)

/-- `orthogonalize(vecs, start)`: Gram-Schmidt over the `M` rows of `vecs`.
When `start = 0` the first vector is normalized and the loop starts at 1;
otherwise the loop starts at `start` on the unmodified basis. -/
def orthogonalize {M N : ℕ} (sqrtQ : ℚ → ℚ) (vecs : Fin M → Vec N)
    (start : ℕ) : Fin M → Vec N :=
  let p := if start = 0 then (gsSeed sqrtQ vecs, 1) else (vecs, start)
  ((List.finRange M).drop p.2).foldl (gsStep sqrtQ) p.1

/-- The contract of the `math.sqrt` oracle at the one input it is consumed
on: the value returned is positive and squares back to the input (this is
exactly what the real square root satisfies on the norm of a nonzero
vector, so a linearly independent input makes all these facts true). -/
def sqrtOK (sqrtQ : ℚ → ℚ) (q : ℚ) : Prop :=
  0 < sqrtQ q ∧ sqrtQ q * sqrtQ q = q

/-! ## `createTrainingClasses` and the dead `not_equal` branches -/

/-- The loop-body filter of `createTrainingClasses`:
`if i == 0: continue` and `elif indices and not i in indices: continue`.
Python truthiness makes an *empty* `indices` list behave as "no filter". -/
def keepLabel (indices : Option (List ℤ)) (i : ℤ) : Bool :=
  decide (i ≠ 0) &&
    (match indices with
     | none => true
     | some l => l.isEmpty || l.contains i)

/-- `createTrainingClasses(image, classMask, calcStats, indices)` builds one
`TrainingClass(image, classMask, i)` per element `i` of
`set(classMask.ravel())` that passes `keepLabel`.  All created classes share
`image` and `classMask`, so the result is embedded as the list of created
class indices (`labels` is the raveled `classMask`). -/
def createTrainingClasses (labels : List ℤ) (indices : Option (List ℤ)) :
    List ℤ :=
  labels.dedup.filter (keepLabel indices)

/-- Failures of the Python interpreter itself that the embedding tracks:
`not_equal` is referenced in `ImageMaskIterator.__init__` and in
`TrainingClass.size` but is bound in neither scope (the module only runs
`import numpy`; the `from numpy import ...` that brings in `not_equal`
is local to `ImageMaskIterator.__iter__`). -/
inductive PyError
  | nameError
deriving DecidableEq

/-- `ImageMaskIterator.__init__`: with a truthy `index` it stores the mask
`numpy.equal(mask, index)`; otherwise it evaluates the unbound name
`not_equal` and raises `NameError`.  `index = Some 0` is falsy in Python. -/
def imageMaskIteratorMask (mask : List ℤ) (index : Option ℤ) :
    Except PyError (List Bool) :=
  match index with
  | some i => if i ≠ 0 then .ok (mask.map (fun v => v == i)) else .error .nameError
  | none => .error .nameError

/-- `TrainingClass.size()`: the cached count while statistics are valid;
otherwise `sum(equal(mask, index))` for a truthy index, and a `NameError`
on the unbound `not_equal` for `index == 0`. -/
def trainingClassSize (statsValid : Bool) (cachedSize : ℕ) (mask : List ℤ)
    (index : ℤ) : Except PyError ℕ :=
  if statsValid then .ok cachedSize
  else if index ≠ 0 then .ok (mask.countP (fun v => v == index))
  else .error .nameError

/-! ## Concrete instances used by counterexamples and witnesses -/

/-- Oracle stub: the fact being checked never consults `log`'s value. -/
def logStub : ℚ → ℚ := fun _ => 0

/-- Oracle stub for `numpy.linalg.eigvals`. -/
def eigvalsStub {n : ℕ} : Mat n n → List ℚ := fun _ => []

/-- A training class with valid 1-band statistics. -/
def tc0 : TrainingClassState 1 :=
  { stats := { mean := ![1], cov := !![1], invCov := !![1], logDetCov := 0,
               numSamples := 5 },
    numBands := 1, image := [![3]] }

/-- The zero transform: `X0 · cov · X0ᵗ` is singular. -/
def X0 : Mat 1 1 := !![0]

/-- The state `TrainingClass.transform` leaves behind when inverting
`X0 · cov · X0ᵗ` fails on `tc0`. -/
def pfail0 : TransformFailed 1 1 :=
  { mean := ![0], cov := !![0], invCov := !![1], logDetCov := 0,
    numBands := 1, image := [![3]] }

/-- A training class whose (hand-set) covariance has negative determinant,
so that `math.log(det(cov'))` raises under `transform` with `X = I`. -/
def tcC7 : TrainingClassState 1 :=
  { stats := { mean := ![1], cov := !![-1], invCov := !![1],
               logDetCov := 9, numSamples := 5 },
    numBands := 1, image := [] }

/-- Two samples in 1 band with a nonsingular sample covariance. -/
def xs4 : List (Vec 1) := [![0], ![2]]

/-- The statistics `calcStatistics` computes from `xs4`. -/
def st4 : GaussianStats 1 :=
  ((calcStatistics logStub eigvalsStub xs4).toOption).getD default

/-- The state `transform` returns for `tcC7` under `X = I`. -/
def tr7 : TrainingClassState 1 :=
  ((tcC7.transform logStub eigvalsStub (1 : Mat 1 1)).toOption).getD default

/-- One 2-band class with valid statistics and invertible covariance,
mean `0` (used to build `cs4`). -/
def cls2z : ClassStats 2 :=
  { size := 2, mean := ![0, 0], cov := !![2, 0; 0, 2] }

/-- Four identical 2-band classes: `C = 4 > B + 1`, `Cw = I` invertible,
`Cb = 0`. -/
def cs4 : List (ClassStats 2) := [cls2z, cls2z, cls2z, cls2z]

/-- A genuine eigendecomposition of the zero matrix (`ldaEigMat cs4 = 0`):
all eigenvalues `0`, eigenvectors the identity columns — exactly what
`numpy.linalg.eig` returns for a zero matrix. -/
def eig4 : Mat 2 2 → Vec 2 × Mat 2 2 := fun _ => (0, 1)

/-- One 2-band class with valid statistics, mean `[1, 1]` (used for `cs3`). -/
def cls2o : ClassStats 2 :=
  { size := 2, mean := ![1, 1], cov := !![2, 0; 0, 2] }

/-- Three identical 2-band classes: zero between-class scatter, `Cw = I`. -/
def cs3 : List (ClassStats 2) := [cls2o, cls2o, cls2o]

/-- A genuine eigendecomposition of the zero matrix whose eigenvector
columns `(1,0)` and `(3,4)` are *not* `Cw`-orthogonal (legal for repeated
eigenvalues, where numpy may return any basis). -/
def eig3 : Mat 2 2 → Vec 2 × Mat 2 2 := fun _ => (0, !![1, 3; 0, 4])

/-- `math.sqrt` table for the `cs3` run: the diagonal entries are 1 and 25. -/
def sqrt3 : ℚ → ℚ := fun q => if q = 25 then 5 else if q = 1 then 1 else 0

/-- Identity stand-in for `math.sqrt` where only output shapes matter. -/
def sqrtId : ℚ → ℚ := fun q => q

/-- Two 1-band classes, means `0` and `2`, shared covariance `2`:
`Cw = Cb = [[1]]` (C4 witness). -/
def csW : List (ClassStats 1) :=
  [{ size := 2, mean := ![0], cov := !![2] },
   { size := 2, mean := ![2], cov := !![2] }]

/-- The eigendecomposition of the `1×1` matrix `[[1]]`: eigenvalue `1`,
eigenvector `[1]`. -/
def eigW : Mat 1 1 → Vec 1 × Mat 1 1 := fun _ => (fun _ => 1, 1)

/-- A single input row for Gram-Schmidt, of squared norm `25`. -/
def vecsC8 : Fin 1 → Vec 2 := ![![3, 4]]

/-- A `math.sqrt` table exactly large enough for `orthogonalize` on
`vecsC8`. -/
def sqrtC8 : ℚ → ℚ := fun q => if q = 25 then 5 else 0

/-- Gaussian statistics of one class in 1 band (Bhattacharyya witness). -/
def gsA5 : GaussianStats 1 :=
  { mean := ![5], cov := !![2], invCov := !![1/2], logDetCov := 3,
    numSamples := 4 }

/-- Gaussian statistics of a second class in 1 band. -/
def gsB5 : GaussianStats 1 :=
  { mean := ![1], cov := !![2], invCov := !![1/2], logDetCov := 7,
    numSamples := 9 }

/-- The true inverse of the averaged covariance of `gsA5` and `gsB5`. -/
def W5 : Mat 1 1 := !![1/2]

end Spectral

namespace Spectral

open Matrix

theorem mul_matInv {n : ℕ} (A : Mat n n) (h : A.det ≠ 0) : A * matInv A = 1 := by
  unfold matInv
  rw [Matrix.mul_smul, Matrix.mul_adjugate, smul_smul, inv_mul_cancel₀ h, one_smul]

theorem matInv_mul {n : ℕ} (A : Mat n n) (h : A.det ≠ 0) : matInv A * A = 1 := by
  unfold matInv
  rw [Matrix.smul_mul, Matrix.adjugate_mul, smul_smul, inv_mul_cancel₀ h, one_smul]

theorem matInv_one {n : ℕ} : matInv (1 : Mat n n) = 1 := by
  unfold matInv
  rw [Matrix.det_one, Matrix.adjugate_one, inv_one, one_smul]

/-- If `A * W = 1` then `W` is the (unique) inverse computed by `matInv`. -/
theorem matInv_eq_of_mul_eq_one {n : ℕ} (A W : Mat n n) (h : A * W = 1) :
    matInv A = W := by
  have hdet : A.det ≠ 0 := by
    intro h0
    have := congrArg Matrix.det h
    rw [Matrix.det_mul, h0, zero_mul, Matrix.det_one] at this
    exact zero_ne_one this
  calc matInv A = matInv A * (A * W) := by rw [h, mul_one]
    _ = (matInv A * A) * W := by rw [mul_assoc]
    _ = W := by rw [matInv_mul A hdet, one_mul]

theorem mcFold_go {B : ℕ} (xs : List (Vec B)) (a : ℕ) (s : Vec B) (s2 : Mat B B) :
    xs.foldl (fun acc x => (acc.1 + 1, acc.2.1 + x, acc.2.2 + outerProd x x)) (a, s, s2) =
      (a + xs.length, s + (xs.map id).sum, s2 + (xs.map (fun x => outerProd x x)).sum) := by
  induction xs generalizing a s s2 with
  | nil => simp
  | cons x xs ih =>
    simp only [List.foldl_cons, List.length_cons, List.map_cons, List.sum_cons, ih]
    refine congrArg₂ _ (by omega) (congrArg₂ _ ?_ ?_)
    · simp [add_assoc, id]
    · simp [add_assoc]

theorem mcFold_eq {B : ℕ} (xs : List (Vec B)) :
    mcFold xs = (xs.length, (xs.map id).sum, (xs.map (fun x => outerProd x x)).sum) := by
  unfold mcFold
  rw [mcFold_go]
  simp

/-- A list sum of mapped values as a `Finset` sum over positions. -/
theorem list_map_sum_eq_fin {α : Type} [AddCommMonoid α] {β : Type}
    (xs : List β) (g : β → α) :
    (xs.map g).sum = ∑ i : Fin xs.length, g (xs.get i) := by
  conv_lhs => rw [← List.ofFn_get xs]
  rw [List.map_ofFn, List.sum_ofFn]
  simp

theorem cumsum_length (L : List ℚ) : (cumsum L).length = L.length := by
  simp [cumsum]

theorem cumsum_getElem (L : List ℚ) (i : ℕ) (h : i < (cumsum L).length) :
    (cumsum L)[i] = (L.take (i + 1)).sum := by
  simp [cumsum]

theorem cumsum_getLastD (L : List ℚ) (hne : L ≠ []) :
    (cumsum L).getLastD 0 = L.sum := by
  have hn : 0 < L.length := List.length_pos.mpr hne
  have hcl : (cumsum L).length = L.length := cumsum_length L
  have hlt : (cumsum L).length - 1 < (cumsum L).length := by omega
  rw [List.getLastD_eq_getLast?, List.getLast?_eq_getElem?,
    List.getElem?_eq_getElem (by omega)]
  simp only [Option.getD_some]
  rw [cumsum_getElem L _ hlt, hcl]
  rw [show L.length - 1 + 1 = L.length from by omega, List.take_length]

/-- What `reduceEigenvectors` returns, for a positive retained fraction at
most 1 and positive total: the prefix of length `k`, where `k ≥ 1` is the
least prefix length whose retained-variance ratio reaches `fraction`. -/
theorem reduceEig_spec {B : ℕ} (L : List ℚ) (V : List (Vec B)) (f : ℚ)
    (hne : L ≠ []) (hlen : V.length = L.length)
    (hf0 : 0 < f) (hf1 : f ≤ 1) (hsum : 0 < L.sum) :
    ∃ k, 1 ≤ k ∧ k ≤ L.length ∧
      reduceEigenvectors L V f = (L.take k, V.take k) ∧
      f ≤ (L.take k).sum / L.sum ∧
      (∀ j, f ≤ (L.take j).sum / L.sum → k ≤ j) := by
  have hn : 0 < L.length := List.length_pos.mpr hne
  have hcl : (cumsum L).length = L.length := cumsum_length L
  have htot : (cumsum L).getLastD 0 = L.sum := cumsum_getLastD L hne
  have hsne : L.sum ≠ 0 := ne_of_gt hsum
  -- the Bool predicate tested by the loop, with `total` rewritten to `L.sum`
  have hpred : ∀ (j : ℕ) (h : j < (cumsum L).length),
      (decide (f ≤ (cumsum L)[j] / (cumsum L).getLastD 0) = true) ↔
        f ≤ (L.take (j + 1)).sum / L.sum := by
    intro j h
    rw [htot, cumsum_getElem L j h]
    simp
  -- `P 0` is impossible, so every prefix reaching the fraction is nonempty
  have hP0 : ¬ f ≤ (L.take 0).sum / L.sum := by
    simp only [List.take_zero, List.sum_nil, zero_div]
    exact not_le.mpr hf0
  have hPn : f ≤ (L.take L.length).sum / L.sum := by
    rw [List.take_length, div_self hsne]
    exact hf1
  unfold reduceEigenvectors breakIdx
  dsimp only
  rcases hfind : (cumsum L).findIdx?
      (fun v => decide (f ≤ v / (cumsum L).getLastD 0)) with _ | i0
  · -- loop ran to completion: i = len − 1, no reduction
    rw [List.findIdx?_eq_none_iff] at hfind
    refine ⟨L.length, hn, le_refl _, ?_, hPn, ?_⟩
    · rw [hcl, if_pos rfl, List.take_length, ← hlen, List.take_length]
    · intro j hj
      by_contra hjlt
      push_neg at hjlt
      have hj1 : 1 ≤ j := by
        by_contra h0
        push_neg at h0
        interval_cases j
        exact hP0 hj
      have hjc : j - 1 < (cumsum L).length := by omega
      have hfalse := hfind ((cumsum L)[j-1]) (List.getElem_mem hjc)
      have hp : f ≤ (L.take ((j - 1) + 1)).sum / L.sum := by
        rw [show j - 1 + 1 = j from by omega]
        exact hj
      have htrue := (hpred (j-1) hjc).mpr hp
      rw [hfalse] at htrue
      exact Bool.noConfusion htrue
  · -- loop broke at the first index `i0` reaching the fraction
    have hsome := List.findIdx?_eq_some_iff_getElem.mp hfind
    rcases hsome with ⟨hi0, hp, hmin⟩
    have hPi0 : f ≤ (L.take (i0 + 1)).sum / L.sum := (hpred i0 hi0).mp hp
    have hminP : ∀ j, f ≤ (L.take j).sum / L.sum → i0 + 1 ≤ j := by
      intro j hj
      by_contra hjlt
      push_neg at hjlt
      have hj1 : 1 ≤ j := by
        by_contra h0
        push_neg at h0
        interval_cases j
        exact hP0 hj
      have hjm : j - 1 < i0 := by omega
      have hfalse := hmin (j - 1) hjm
      have hp : f ≤ (L.take ((j - 1) + 1)).sum / L.sum := by
        rw [show j - 1 + 1 = j from by omega]
        exact hj
      have htrue := (hpred (j-1) (by omega)).mpr hp
      exact hfalse htrue
    by_cases hlast : i0 = L.length - 1
    · refine ⟨L.length, hn, le_refl _, ?_, hPn, ?_⟩
      · rw [hcl, if_pos hlast, List.take_length, ← hlen, List.take_length]
      · intro j hj
        have := hminP j hj
        omega
    · refine ⟨i0 + 1, by omega, by omega, ?_, hPi0, hminP⟩
      rw [hcl, if_neg hlast]

/-- Claim C6, counterexample: with a trailing zero eigenvalue,
`reduceEigenvectors(L, V, 1.0)` does *not* return the full input: the
break happens at index 0 (the ratio is already 1) and the pair is
truncated to length 1. -/
theorem claim_C6_counterexample :
    reduceEigenvectors [1, 0] [![(1 : ℚ)], ![2]] 1 ≠
      ([1, 0], [![(1 : ℚ)], ![2]]) := by
  have h : reduceEigenvectors [1, 0] [![(1 : ℚ)], ![2]] 1 =
      ([1], [![(1 : ℚ)]]) := by
    have hc : cumsum [1, 0] = [1, 1] := by
      simp [cumsum, List.range_succ]
    unfold reduceEigenvectors breakIdx
    rw [hc]
    norm_num [List.findIdx?_cons]
  rw [h]
  intro hcontra
  have := congrArg (fun p => p.1.length) hcontra
  simp at this

/-- Claim C6, amended: `reduceEigenvectors` retains the smallest prefix `k`
whose retained-eigenvalue ratio reaches `fraction`; for `fraction = 1.0`
the full input is returned unchanged provided all eigenvalues are strictly
positive (a trailing zero is truncated away, as the counterexample shows). -/
theorem claim_C6_amended {B : ℕ} (L : List ℚ) (V : List (Vec B)) (fraction : ℚ)
    (hne : L ≠ []) (hlen : V.length = L.length)
    (hf0 : 0 < fraction) (hf1 : fraction ≤ 1)
    (hnonneg : ∀ x ∈ L, 0 ≤ x) (hdesc : L.Pairwise (· ≥ ·))
    (hsum : 0 < L.sum) :
    ((reduceEigenvectors L V fraction).1 =
        L.take (reduceEigenvectors L V fraction).1.length ∧
      (reduceEigenvectors L V fraction).2 =
        V.take (reduceEigenvectors L V fraction).1.length ∧
      1 ≤ (reduceEigenvectors L V fraction).1.length ∧
      fraction ≤ (L.take (reduceEigenvectors L V fraction).1.length).sum / L.sum ∧
      (∀ j, fraction ≤ (L.take j).sum / L.sum →
        (reduceEigenvectors L V fraction).1.length ≤ j)) ∧
    (fraction = 1 → (∀ x ∈ L, 0 < x) →
      reduceEigenvectors L V fraction = (L, V)) := by
  obtain ⟨k, hk1, hkn, heq, hP, hmin⟩ :=
    reduceEig_spec L V fraction hne hlen hf0 hf1 hsum
  have hklen : (reduceEigenvectors L V fraction).1.length = k := by
    rw [heq]
    simp [min_eq_left hkn]
  constructor
  · rw [hklen, heq]
    exact ⟨rfl, rfl, hk1, hP, hmin⟩
  · intro hf hpos
    -- with every eigenvalue positive, no proper prefix reaches the total
    have hkfull : k = L.length := by
      by_contra hklt
      have hk : k < L.length := lt_of_le_of_ne hkn hklt
      have hdrop : 0 < (L.drop k).sum := by
        refine List.sum_pos _ (fun x hx => hpos x (List.mem_of_mem_drop hx)) ?_
        intro hnil
        have := congrArg List.length hnil
        simp at this
        omega
      have hlt : (L.take k).sum < L.sum := by
        have hsplit : (L.take k).sum + (L.drop k).sum = L.sum := by
          rw [← List.sum_append, List.take_append_drop]
        linarith
      have := hP
      rw [hf] at this
      have : L.sum ≤ (L.take k).sum := by
        rw [le_div_iff (by exact hsum), one_mul] at this
        exact this
      linarith
    rw [heq, hkfull, List.take_length, ← hlen, List.take_length]

/-- Witness for C6 at `L = [2, 1]`, `fraction = 1/2`: the first eigenvalue
already retains two thirds of the variance, so exactly one pair is kept. -/
theorem claim_C6_witness :
    (([2, 1] : List ℚ) ≠ [] ∧ ([![(5 : ℚ)], ![7]]).length = ([2, 1] : List ℚ).length ∧
      (0 : ℚ) < 1/2 ∧ (1/2 : ℚ) ≤ 1 ∧
      (∀ x ∈ ([2, 1] : List ℚ), 0 ≤ x) ∧
      ([2, 1] : List ℚ).Pairwise (· ≥ ·) ∧ (0 : ℚ) < ([2, 1] : List ℚ).sum) ∧
    ((reduceEigenvectors [2, 1] [![(5 : ℚ)], ![7]] (1/2)).1 =
        ([2, 1] : List ℚ).take
          (reduceEigenvectors [2, 1] [![(5 : ℚ)], ![7]] (1/2)).1.length ∧
      (reduceEigenvectors [2, 1] [![(5 : ℚ)], ![7]] (1/2)).2 =
        ([![(5 : ℚ)], ![7]]).take
          (reduceEigenvectors [2, 1] [![(5 : ℚ)], ![7]] (1/2)).1.length ∧
      1 ≤ (reduceEigenvectors [2, 1] [![(5 : ℚ)], ![7]] (1/2)).1.length ∧
      (1/2 : ℚ) ≤ (([2, 1] : List ℚ).take
          (reduceEigenvectors [2, 1] [![(5 : ℚ)], ![7]] (1/2)).1.length).sum /
            ([2, 1] : List ℚ).sum ∧
      (∀ j, (1/2 : ℚ) ≤ (([2, 1] : List ℚ).take j).sum / ([2, 1] : List ℚ).sum →
        (reduceEigenvectors [2, 1] [![(5 : ℚ)], ![7]] (1/2)).1.length ≤ j)) ∧
    ((1/2 : ℚ) = 1 → (∀ x ∈ ([2, 1] : List ℚ), 0 < x) →
      reduceEigenvectors [2, 1] [![(5 : ℚ)], ![7]] (1/2) =
        ([2, 1], [![(5 : ℚ)], ![7]])) := by
  have h1 : ([2, 1] : List ℚ) ≠ [] := by simp
  have h2 : ([![(5 : ℚ)], ![7]]).length = ([2, 1] : List ℚ).length := by simp
  have h3 : (0 : ℚ) < 1/2 := by norm_num
  have h4 : (1/2 : ℚ) ≤ 1 := by norm_num
  have h5 : ∀ x ∈ ([2, 1] : List ℚ), 0 ≤ x := by
    intro x hx
    simp at hx
    rcases hx with h | h <;> rw [h] <;> norm_num
  have h6 : ([2, 1] : List ℚ).Pairwise (· ≥ ·) := by
    norm_num [List.pairwise_cons]
  have h7 : (0 : ℚ) < ([2, 1] : List ℚ).sum := by
    norm_num [List.sum_cons, List.sum_nil]
  exact ⟨⟨h1, h2, h3, h4, h5, h6, h7⟩,
    claim_C6_amended [2, 1] [![(5 : ℚ)], ![7]] (1/2) h1 h2 h3 h4 h5 h6 h7⟩

/-- Claim C10: the "all nonzero mask elements" selection mode is never
executable: `TrainingClass.size` on an index-0 class with invalid statistics
and `ImageMaskIterator.__init__` without an index both evaluate the unbound
name `not_equal` and raise `NameError`; only the index-equality mask mode
succeeds. -/
theorem claim_C10 :
    (∀ (mask : List ℤ) (cached : ℕ),
        trainingClassSize false cached mask 0 = .error .nameError) ∧
    (∀ mask : List ℤ, imageMaskIteratorMask mask none = .error .nameError) ∧
    (∀ (mask : List ℤ) (i : ℤ), i ≠ 0 →
        imageMaskIteratorMask mask (some i) = .ok (mask.map (fun v => v == i))) := by
  refine ⟨fun _ _ => rfl, fun _ => rfl, fun mask i hi => ?_⟩
  simp [imageMaskIteratorMask, hi]

/-- Witness for C10 at a concrete mask and index. -/
theorem claim_C10_witness :
    trainingClassSize false 7 [0, 1, 2] 0 = .error .nameError ∧
    imageMaskIteratorMask [0, 1, 2] none = .error .nameError ∧
    imageMaskIteratorMask [0, 1, 2] (some 2) = .ok [false, false, true] :=
  ⟨claim_C10.1 [0, 1, 2] 7, claim_C10.2.1 [0, 1, 2],
   by rw [claim_C10.2.2 [0, 1, 2] 2 (by decide)]; rfl⟩

/-- Claim C9, counterexample: with `allowedIndices` *given but empty*,
Python truthiness disables the filter, so the produced classes are not
restricted to the allowed set (which is empty): the claim's description of
the output fails at `labels = {0,1,1,2}`, `allowedIndices = []`. -/
theorem claim_C9_counterexample :
    (createTrainingClasses [0, 1, 1, 2] (some [])).toFinset ≠
      (([0, 1, 1, 2] : List ℤ).toFinset.filter
        (fun i => i ≠ 0 ∧ i ∈ ([] : List ℤ))) := by
  decide

/-- Claim C9, amended: when `allowedIndices` is absent or nonempty,
`createTrainingClasses` produces exactly one class per distinct label that
is nonzero and allowed, never one for label 0; `{0,1,1,2}` yields exactly
the two classes 1 and 2. -/
theorem claim_C9_amended (labels : List ℤ) (indices : Option (List ℤ))
    (hne : indices = none ∨ ∃ l, indices = some l ∧ l ≠ []) :
    (createTrainingClasses labels indices).Nodup ∧
    (createTrainingClasses labels indices).toFinset =
      labels.toFinset.filter (fun i => i ≠ 0 ∧ ∀ l, indices = some l → i ∈ l) ∧
    (0 : ℤ) ∉ createTrainingClasses labels indices ∧
    (createTrainingClasses [0, 1, 1, 2] none).toFinset = ({1, 2} : Finset ℤ) ∧
    (createTrainingClasses [0, 1, 1, 2] none).length = 2 := by
  refine ⟨labels.nodup_dedup.filter _, ?_, ?_, by decide, by decide⟩
  · ext i
    simp only [createTrainingClasses, List.mem_toFinset, List.mem_filter,
      List.mem_dedup, Finset.mem_filter, keepLabel]
    rcases hne with h | ⟨l, hl, hlne⟩
    · subst h
      simp
    · subst hl
      cases l with
      | nil => exact absurd rfl hlne
      | cons a as => simp
  · intro hmem
    simp only [createTrainingClasses, List.mem_filter, keepLabel] at hmem
    simp at hmem

/-- Witness for C9 at `labels = [0,1,1,2]` with no allowed-index filter. -/
theorem claim_C9_witness :
    (createTrainingClasses [0, 1, 1, 2] none).Nodup ∧
    (createTrainingClasses [0, 1, 1, 2] none).toFinset =
      ([0, 1, 1, 2] : List ℤ).toFinset.filter
        (fun i => i ≠ 0 ∧ ∀ l, (none : Option (List ℤ)) = some l → i ∈ l) ∧
    (0 : ℤ) ∉ createTrainingClasses [0, 1, 1, 2] none ∧
    (createTrainingClasses [0, 1, 1, 2] none).toFinset = ({1, 2} : Finset ℤ) ∧
    (createTrainingClasses [0, 1, 1, 2] none).length = 2 :=
  claim_C9_amended [0, 1, 1, 2] none (Or.inl rfl)

/-- Claim C2, counterexample: a one-sample source does not raise; `mean_cov`
returns a full triple (over `ℚ` the zero-divided covariance is the zero
matrix where numpy yields non-finite entries). -/
theorem claim_C2_counterexample :
    mean_cov [![(3 : ℚ)]] = (![3], 0, 1) := by
  unfold mean_cov mcFold
  norm_num
  funext i
  fin_cases i
  norm_num

/-- Claim C2, amended: `mean_cov` performs no sample-count check and never
raises an InsufficientSamples error; on a single-sample source it returns
`(x, cov, 1)` where `cov` is produced by the division by `count − 1 = 0`. -/
theorem claim_C2_amended {B : ℕ} (v : Vec B) :
    mean_cov [v] = (v, 0, 1) := by
  unfold mean_cov
  rw [mcFold_eq]
  refine congrArg₂ _ ?_ (congrArg₂ _ ?_ rfl)
  · funext i
    simp
  · simp

/-- Claim C5: `bDistanceTerms` returns the linear term
`(1/8)·Δmᵗ·inverse(avgCov)·Δm` and the quadratic term
`0.5·(logDet(avgCov) − 0.5·logDetCovA − 0.5·logDetCovB)`, and
`bhattacharyyaDistance` is their sum.  `W` is any right inverse of the
averaged covariance (matrix inverses are unique, so this pins the value). -/
theorem claim_C5 {B : ℕ} (log : ℚ → ℚ) (eigvals : Mat B B → List ℚ)
    (a b : GaussianStats B) (W : Mat B B)
    (hW : ((1 : ℚ) / 2) • (a.cov + b.cov) * W = 1) :
    bDistanceTerms log eigvals a b =
      ((1 / 8) * dotProduct (a.mean - b.mean) (W.mulVec (a.mean - b.mean)),
       (1 / 2) * (logDeterminant log eigvals (((1 : ℚ) / 2) • (a.cov + b.cov))
                  - (1 / 2) * a.logDetCov - (1 / 2) * b.logDetCov)) ∧
    bhattacharyyaDistance log eigvals a b =
      (bDistanceTerms log eigvals a b).1 + (bDistanceTerms log eigvals a b).2 := by
  constructor
  · unfold bDistanceTerms
    dsimp only
    rw [matInv_eq_of_mul_eq_one _ W hW]
  · rfl

/-- Witness for C5 at two concrete 1-band classes with `avgCov = 2`. -/
theorem claim_C5_witness :
    (((1 : ℚ) / 2) • (gsA5.cov + gsB5.cov) * W5 = 1) ∧
    (bDistanceTerms logStub eigvalsStub gsA5 gsB5 =
      ((1 / 8) * dotProduct (gsA5.mean - gsB5.mean)
          (W5.mulVec (gsA5.mean - gsB5.mean)),
       (1 / 2) * (logDeterminant logStub eigvalsStub
            (((1 : ℚ) / 2) • (gsA5.cov + gsB5.cov))
          - (1 / 2) * gsA5.logDetCov - (1 / 2) * gsB5.logDetCov)) ∧
     bhattacharyyaDistance logStub eigvalsStub gsA5 gsB5 =
      (bDistanceTerms logStub eigvalsStub gsA5 gsB5).1 +
        (bDistanceTerms logStub eigvalsStub gsA5 gsB5).2) := by
  have h : ((1 : ℚ) / 2) • (gsA5.cov + gsB5.cov) * W5 = 1 := by
    show ((1 : ℚ) / 2) • (!![2] + !![2]) * !![1/2] = 1
    ext i j
    fin_cases i
    fin_cases j
    simp [Matrix.mul_apply, Fin.sum_univ_one]
    norm_num
  exact ⟨h, claim_C5 logStub eigvalsStub gsA5 gsB5 W5 h⟩

/-- Claim C7: wherever `logDetCov` is stored, a failing or non-positive
direct determinant leads to the positive-eigenvalue log-sum fallback:
`calcStatistics` stores the fallback value unconditionally, and a
successful `transform` whose new covariance has non-positive determinant
stores the fallback value for the new covariance. -/
theorem claim_C7 {B C : ℕ} (log : ℚ → ℚ) (eigvalsB : Mat B B → List ℚ)
    (eigvalsC : Mat C C → List ℚ) :
    (∀ (xs : List (Vec B)) (st : GaussianStats B),
        calcStatistics log eigvalsB xs = .ok st →
        st.logDetCov = logDeterminant log eigvalsB st.cov) ∧
    (∀ (tc : TrainingClassState B) (X : Mat C B) (tc2 : TrainingClassState C),
        tc.transform log eigvalsC X = .ok tc2 →
        tc2.stats.cov.det ≤ 0 →
        tc2.stats.logDetCov = logDeterminant log eigvalsC tc2.stats.cov) := by
  constructor
  · intro xs st h
    unfold calcStatistics at h
    dsimp only at h
    split at h
    · injection h with h2
      subst h2
      rfl
    · cases h
  · intro tc X tc2 h hdet
    unfold TrainingClassState.transform at h
    dsimp only at h
    split at h
    · injection h with h2
      subst h2
      dsimp only at hdet ⊢
      rw [if_neg (not_lt.mpr hdet)]
    · cases h

/-- Witness for C7: `calcStatistics` on two 1-band samples, and `transform`
of a class with `det cov' = −1 < 0`. -/
theorem claim_C7_witness :
    (calcStatistics logStub eigvalsStub xs4 = .ok st4 ∧
     st4.logDetCov = logDeterminant logStub eigvalsStub st4.cov) ∧
    (tcC7.transform logStub eigvalsStub (1 : Mat 1 1) = .ok tr7 ∧
     tr7.stats.cov.det ≤ 0 ∧
     tr7.stats.logDetCov = logDeterminant logStub eigvalsStub tr7.stats.cov) := by
  have h1 : calcStatistics logStub eigvalsStub xs4 = .ok st4 := by
    have hd : ((mean_cov xs4).2.1).det ≠ 0 := by
      unfold xs4 mean_cov mcFold
      norm_num [Matrix.det_fin_one, outerProd]
    unfold st4
    unfold calcStatistics
    dsimp only
    rw [if_pos hd]
    rfl
  have hd : ((1 : Mat 1 1) * tcC7.stats.cov * (1 : Mat 1 1)ᵀ).det ≠ 0 := by
    norm_num [tcC7, Matrix.det_fin_one, Matrix.one_apply]
  have h2 : tcC7.transform logStub eigvalsStub (1 : Mat 1 1) = .ok tr7 := by
    unfold tr7
    unfold TrainingClassState.transform
    dsimp only
    rw [if_pos hd]
    rfl
  have h3 : tr7.stats.cov.det ≤ 0 := by
    have hc : tr7.stats.cov = (1 : Mat 1 1) * tcC7.stats.cov * (1 : Mat 1 1)ᵀ := by
      unfold tr7
      unfold TrainingClassState.transform
      dsimp only
      rw [if_pos hd]
      rfl
    rw [hc]
    norm_num [tcC7, Matrix.det_fin_one, Matrix.one_apply]
  exact ⟨⟨h1, (@claim_C7 1 1 logStub eigvalsStub eigvalsStub).1 xs4 st4 h1⟩,
         ⟨h2, h3, (@claim_C7 1 1 logStub eigvalsStub eigvalsStub).2 tcC7 1 tr7 h2 h3⟩⟩

/-- Claim C1, counterexample: on `tc0` (valid statistics) with transform
`X0`, inversion of `X0·cov·X0ᵗ` fails — and the class is left with
`stats.mean` already overwritten (`![0] ≠ ![1]`): the prior valid state is
*not* left unchanged, so the update is not all-or-nothing. -/
theorem claim_C1_counterexample :
    tc0.transform logStub eigvalsStub X0 = .error pfail0 ∧
    pfail0.mean ≠ tc0.stats.mean := by
  constructor
  · have hd : ¬ (X0 * tc0.stats.cov * X0ᵀ).det ≠ 0 := by
      norm_num [tc0, X0, Matrix.det_fin_one, Matrix.mul_apply, Fin.sum_univ_one]
    unfold TrainingClassState.transform
    rw [if_neg hd]
    unfold pfail0 tc0 X0
    refine congrArg _ ?_
    refine congrArg₂ (fun m c => TransformFailed.mk m c !![1] 0 1 [![3]]) ?_ ?_
    · funext i
      fin_cases i
      simp [Matrix.mulVec, Matrix.dotProduct, Fin.sum_univ_one]
    · ext i j
      fin_cases i
      fin_cases j
      simp [Matrix.mul_apply, Fin.sum_univ_one]
  · intro h
    have h0 := congrFun h 0
    simp [pfail0, tc0] at h0

/-- Claim C1, amended: `transform` is not atomic.  Whenever inversion of the
transformed covariance fails, the exception leaves `stats.mean` and
`stats.cov` overwritten with `X·mean` and `X·cov·Xᵗ`, while `invCov`,
`logDetCov`, `numBands` and the bound sample source keep their prior
values. -/
theorem claim_C1_amended {B C : ℕ} (log : ℚ → ℚ) (eigvals : Mat C C → List ℚ)
    (tc : TrainingClassState B) (X : Mat C B) (e : TransformFailed B C)
    (h : tc.transform log eigvals X = .error e) :
    (X * tc.stats.cov * Xᵀ).det = 0 ∧
    e.mean = X.mulVec tc.stats.mean ∧
    e.cov = X * tc.stats.cov * Xᵀ ∧
    e.invCov = tc.stats.invCov ∧
    e.logDetCov = tc.stats.logDetCov ∧
    e.numBands = tc.numBands ∧
    e.image = tc.image := by
  unfold TrainingClassState.transform at h
  dsimp only at h
  split at h
  · cases h
  · rename_i hdet
    injection h with h2
    subst h2
    exact ⟨not_not.mp hdet, rfl, rfl, rfl, rfl, rfl, rfl⟩

/-- Witness for C1 (amended) at the concrete failing transform of `tc0`. -/
theorem claim_C1_amended_witness :
    (X0 * tc0.stats.cov * X0ᵀ).det = 0 ∧
    pfail0.mean = X0.mulVec tc0.stats.mean ∧
    pfail0.cov = X0 * tc0.stats.cov * X0ᵀ ∧
    pfail0.invCov = tc0.stats.invCov ∧
    pfail0.logDetCov = tc0.stats.logDetCov ∧
    pfail0.numBands = tc0.numBands ∧
    pfail0.image = tc0.image := by
  have h : tc0.transform logStub eigvalsStub X0 = .error pfail0 := by
    have hd : ¬ (X0 * tc0.stats.cov * X0ᵀ).det ≠ 0 := by
      norm_num [tc0, X0, Matrix.det_fin_one, Matrix.mul_apply, Fin.sum_univ_one]
    unfold TrainingClassState.transform
    rw [if_neg hd]
    unfold pfail0 tc0 X0
    refine congrArg _ ?_
    refine congrArg₂ (fun m c => TransformFailed.mk m c !![1] 0 1 [![3]]) ?_ ?_
    · funext i
      fin_cases i
      simp [Matrix.mulVec, Matrix.dotProduct, Fin.sum_univ_one]
    · ext i j
      fin_cases i
      fin_cases j
      simp [Matrix.mul_apply, Fin.sum_univ_one]
  exact claim_C1_amended logStub eigvalsStub tc0 X0 pfail0 h

/-! ### Claim C3: `mean_cov` on sources with at least two samples -/

theorem finset_sum_mulVec {m n : ℕ} {ι : Type} (s : Finset ι) (M : ι → Mat m n)
    (y : Vec n) : (∑ i ∈ s, M i).mulVec y = ∑ i ∈ s, (M i).mulVec y := by
  funext r
  simp only [Matrix.mulVec, Matrix.dotProduct, Finset.sum_apply, Matrix.sum_apply,
    Finset.sum_mul]
  rw [Finset.sum_comm]

theorem dot_sum_right {n : ℕ} {ι : Type} (s : Finset ι) (y : Vec n)
    (v : ι → Vec n) :
    Matrix.dotProduct y (∑ i ∈ s, v i) = ∑ i ∈ s, Matrix.dotProduct y (v i) := by
  simp only [Matrix.dotProduct, Finset.sum_apply, Finset.mul_sum]
  rw [Finset.sum_comm]

theorem dot_sum_left {n : ℕ} {ι : Type} (s : Finset ι) (y : Vec n)
    (v : ι → Vec n) :
    Matrix.dotProduct (∑ i ∈ s, v i) y = ∑ i ∈ s, Matrix.dotProduct (v i) y := by
  simp only [Matrix.dotProduct, Finset.sum_apply, Finset.sum_mul]
  rw [Finset.sum_comm]

theorem outerProd_mulVec {B : ℕ} (u v y : Vec B) :
    (outerProd u v).mulVec y = (Matrix.dotProduct v y) • u := by
  funext i
  simp only [outerProd, Matrix.mulVec, Matrix.dotProduct, Pi.smul_apply,
    smul_eq_mul]
  rw [Finset.sum_mul]
  refine Finset.sum_congr rfl (fun j _ => ?_)
  ring

theorem dot_outerProd {B : ℕ} (u v y : Vec B) :
    Matrix.dotProduct y ((outerProd u v).mulVec y) =
      Matrix.dotProduct u y * Matrix.dotProduct v y := by
  rw [outerProd_mulVec, Matrix.dotProduct_smul, smul_eq_mul,
    Matrix.dotProduct_comm y u]
  ring

theorem outerProd_transpose {B : ℕ} (u v : Vec B) :
    (outerProd u v)ᵀ = outerProd v u := by
  funext i j
  simp only [Matrix.transpose_apply, outerProd]
  ring

theorem mean_cov_count {B : ℕ} (xs : List (Vec B)) :
    (mean_cov xs).2.2 = xs.length := by
  unfold mean_cov
  rw [mcFold_eq]

theorem mean_cov_mean {B : ℕ} (xs : List (Vec B)) :
    (mean_cov xs).1 =
      fun b => (∑ i : Fin xs.length, xs.get i b) / (xs.length : ℚ) := by
  unfold mean_cov
  rw [mcFold_eq]
  dsimp only
  funext b
  rw [list_map_sum_eq_fin xs id]
  simp [Finset.sum_apply]

theorem mean_cov_cov {B : ℕ} (xs : List (Vec B)) :
    (mean_cov xs).2.1 =
      ((xs.length : ℚ) - 1)⁻¹ •
        ((∑ i : Fin xs.length, outerProd (xs.get i) (xs.get i)) -
          (xs.length : ℚ)⁻¹ •
            outerProd (∑ i : Fin xs.length, xs.get i)
              (∑ i : Fin xs.length, xs.get i)) := by
  unfold mean_cov
  rw [mcFold_eq]
  dsimp only
  rw [list_map_sum_eq_fin xs id, list_map_sum_eq_fin xs (fun x => outerProd x x)]
  simp

/-- Claim C3: for a source of `N ≥ 2` samples, `mean_cov` returns the
elementwise average as `mean`, the matrix
`(Σ x·xᵗ − (Σx)(Σx)ᵗ/N) / (N−1)` as `cov` — a symmetric positive
semi-definite `B×B` matrix — and `count = N` exactly. -/
theorem claim_C3 {B : ℕ} (xs : List (Vec B)) (h2 : 2 ≤ xs.length) :
    ((mean_cov xs).1 =
      fun b => (∑ i : Fin xs.length, xs.get i b) / (xs.length : ℚ)) ∧
    ((mean_cov xs).2.1 =
      ((xs.length : ℚ) - 1)⁻¹ •
        ((∑ i : Fin xs.length, outerProd (xs.get i) (xs.get i)) -
          (xs.length : ℚ)⁻¹ •
            outerProd (∑ i : Fin xs.length, xs.get i)
              (∑ i : Fin xs.length, xs.get i))) ∧
    ((mean_cov xs).2.1)ᵀ = (mean_cov xs).2.1 ∧
    (∀ y : Vec B, 0 ≤ Matrix.dotProduct y (((mean_cov xs).2.1).mulVec y)) ∧
    (mean_cov xs).2.2 = xs.length := by
  have hn0 : (0 : ℚ) < (xs.length : ℚ) := by
    have : (0 : ℕ) < xs.length := by omega
    exact_mod_cast this
  refine ⟨mean_cov_mean xs, mean_cov_cov xs, ?_, ?_, mean_cov_count xs⟩
  · rw [mean_cov_cov xs]
    rw [Matrix.transpose_smul, Matrix.transpose_sub, Matrix.transpose_sum,
      Matrix.transpose_smul, outerProd_transpose]
    congr 1
    congr 1
    refine Finset.sum_congr rfl (fun i _ => ?_)
    exact outerProd_transpose _ _
  · intro y
    rw [mean_cov_cov xs]
    set n := xs.length with hn
    set a : Fin n → ℚ := fun i => Matrix.dotProduct (xs.get i) y with ha
    have hexp : Matrix.dotProduct y
        ((((n : ℚ) - 1)⁻¹ •
          ((∑ i : Fin n, outerProd (xs.get i) (xs.get i)) -
            (n : ℚ)⁻¹ •
              outerProd (∑ i : Fin n, xs.get i)
                (∑ i : Fin n, xs.get i))).mulVec y) =
        ((n : ℚ) - 1)⁻¹ *
          ((∑ i : Fin n, a i * a i) - (n : ℚ)⁻¹ * ((∑ i : Fin n, a i) * (∑ i : Fin n, a i))) := by
      rw [Matrix.smul_mulVec_assoc, Matrix.dotProduct_smul, smul_eq_mul]
      congr 1
      rw [Matrix.sub_mulVec, Matrix.dotProduct_sub]
      congr 1
      · rw [finset_sum_mulVec, dot_sum_right]
        refine Finset.sum_congr rfl (fun i _ => ?_)
        rw [dot_outerProd]
      · rw [Matrix.smul_mulVec_assoc, Matrix.dotProduct_smul, smul_eq_mul]
        congr 1
        rw [dot_outerProd, dot_sum_left]
    rw [hexp]
    have hcs : ((∑ i : Fin n, a i)) ^ 2 ≤ (n : ℚ) * ∑ i : Fin n, (a i) ^ 2 := by
      have hcs0 : (∑ i ∈ (Finset.univ : Finset (Fin n)), a i) ^ 2 ≤
          ((Finset.univ : Finset (Fin n)).card : ℚ) *
            ∑ i ∈ (Finset.univ : Finset (Fin n)), (a i) ^ 2 :=
        sq_sum_le_card_mul_sum_sq
      simpa using hcs0
    have hfac : (0 : ℚ) ≤ (∑ i : Fin n, a i * a i) -
        (n : ℚ)⁻¹ * ((∑ i : Fin n, a i) * (∑ i : Fin n, a i)) := by
      have h1 : (n : ℚ)⁻¹ * ((∑ i : Fin n, a i) * (∑ i : Fin n, a i)) ≤
          (n : ℚ)⁻¹ * ((n : ℚ) * ∑ i : Fin n, (a i) ^ 2) := by
        refine mul_le_mul_of_nonneg_left ?_ (by positivity)
        rw [← sq]
        exact hcs
      have h2 : (n : ℚ)⁻¹ * ((n : ℚ) * ∑ i : Fin n, (a i) ^ 2) =
          ∑ i : Fin n, (a i) ^ 2 := by
        field_simp
      have h3 : (∑ i : Fin n, a i * a i) = ∑ i : Fin n, (a i) ^ 2 := by
        refine Finset.sum_congr rfl (fun i _ => ?_)
        ring
      rw [h3]
      linarith
    refine mul_nonneg ?_ hfac
    have : (1 : ℚ) ≤ (n : ℚ) - 1 := by
      have : (2 : ℚ) ≤ (n : ℚ) := by exact_mod_cast h2
      linarith
    positivity

/-- Witness for C3 at two concrete 1-band samples. -/
theorem claim_C3_witness :
    2 ≤ (xs4).length ∧
    (((mean_cov xs4).1 =
        fun b => (∑ i : Fin xs4.length, xs4.get i b) / (xs4.length : ℚ)) ∧
      ((mean_cov xs4).2.1 =
        ((xs4.length : ℚ) - 1)⁻¹ •
          ((∑ i : Fin xs4.length, outerProd (xs4.get i) (xs4.get i)) -
            (xs4.length : ℚ)⁻¹ •
              outerProd (∑ i : Fin xs4.length, xs4.get i)
                (∑ i : Fin xs4.length, xs4.get i))) ∧
      ((mean_cov xs4).2.1)ᵀ = (mean_cov xs4).2.1 ∧
      (∀ y : Vec 1, 0 ≤ Matrix.dotProduct y (((mean_cov xs4).2.1).mulVec y)) ∧
      (mean_cov xs4).2.2 = xs4.length) :=
  ⟨by norm_num [xs4], claim_C3 xs4 (by norm_num [xs4])⟩

/-! ### Claim C8: `orthogonalize` produces an orthonormal basis -/

theorem gsAt_zero {M N : ℕ} (sqrtQ : ℚ → ℚ) (vecs : Fin M → Vec N) :
    gsAt sqrtQ vecs 0 = gsSeed sqrtQ vecs := by
  unfold gsAt
  simp

theorem finRange_drop_length {M : ℕ} :
    ((List.finRange M).drop 1).length = M - 1 := by
  simp

theorem gsAt_succ {M N : ℕ} (sqrtQ : ℚ → ℚ) (vecs : Fin M → Vec N) (k : ℕ)
    (hk : k + 1 < M) :
    gsAt sqrtQ vecs (k + 1) =
      gsStep sqrtQ (gsAt sqrtQ vecs k) ⟨k + 1, hk⟩ := by
  unfold gsAt
  have hlen : k < ((List.finRange M).drop 1).length := by
    rw [finRange_drop_length]
    omega
  rw [List.take_succ, List.getElem?_eq_getElem hlen]
  rw [List.foldl_append]
  have helem : ((List.finRange M).drop 1)[k] = (⟨k + 1, hk⟩ : Fin M) := by
    rw [List.getElem_drop, List.getElem_finRange]
    ext
    simp [Nat.add_comm]
  rw [helem]
  rfl

theorem gsAt_sat {M N : ℕ} (sqrtQ : ℚ → ℚ) (vecs : Fin M → Vec N) (k : ℕ)
    (hk : M - 1 ≤ k) :
    gsAt sqrtQ vecs k = gsAt sqrtQ vecs (M - 1) := by
  unfold gsAt
  rw [List.take_of_length_le (by rw [finRange_drop_length]; omega),
    List.take_of_length_le (by rw [finRange_drop_length])]

theorem gsAt_agree {M N : ℕ} (sqrtQ : ℚ → ℚ) (vecs : Fin M → Vec N)
    (k k' : ℕ) (hkk : k ≤ k') (j : Fin M) (hj : j.val ≤ k) :
    gsAt sqrtQ vecs k' j = gsAt sqrtQ vecs k j := by
  induction k' with
  | zero =>
    have : k = 0 := by omega
    rw [this]
  | succ m ih =>
    by_cases hm : k = m + 1
    · rw [hm]
    · have hkm : k ≤ m := by omega
      by_cases hlt : m + 1 < M
      · rw [gsAt_succ sqrtQ vecs m hlt]
        unfold gsStep
        rw [Function.update_noteq]
        · exact ih hkm
        · intro heq
          have := congrArg Fin.val heq
          simp at this
          omega
      · rw [gsAt_sat sqrtQ vecs (m + 1) (by omega),
          ← gsAt_sat sqrtQ vecs m (by omega)]
        exact ih hkm

theorem gsAt_untouched {M N : ℕ} (sqrtQ : ℚ → ℚ) (vecs : Fin M → Vec N)
    (k : ℕ) (j : Fin M) (hj : k < j.val) :
    gsAt sqrtQ vecs k j = vecs j := by
  induction k with
  | zero =>
    rw [gsAt_zero]
    unfold gsSeed
    split
    · rw [Function.update_noteq]
      intro heq
      have := congrArg Fin.val heq
      simp at this
      omega
    · rfl
  | succ m ih =>
    by_cases hlt : m + 1 < M
    · rw [gsAt_succ sqrtQ vecs m hlt]
      unfold gsStep
      rw [Function.update_noteq]
      · exact ih (by omega)
      · intro heq
        have := congrArg Fin.val heq
        simp at this
        omega
    · have hjM := j.isLt
      omega

theorem gsU_mulVec {M N : ℕ} (b : Fin M → Vec N) (i : Fin M)
    (z : Fin i.val → ℚ) :
    (gsU b i).mulVec z =
      ∑ c : Fin i.val, z c • b ⟨c.val, lt_trans c.isLt i.isLt⟩ := by
  funext r
  simp only [gsU, Matrix.mulVec, Matrix.dotProduct, Finset.sum_apply,
    Pi.smul_apply, smul_eq_mul]
  refine Finset.sum_congr rfl (fun c _ => ?_)
  ring

theorem gsU_gram {M N : ℕ} (b : Fin M → Vec N) (i : Fin M)
    (horth : ∀ c c' : Fin M, c.val < i.val → c'.val < i.val →
      Matrix.dotProduct (b c) (b c') = if c = c' then 1 else 0) :
    (gsU b i)ᵀ * gsU b i = 1 := by
  ext c d
  rw [Matrix.mul_apply, Matrix.one_apply]
  have : ∀ r, (gsU b i)ᵀ c r * gsU b i r d =
      b ⟨c.val, lt_trans c.isLt i.isLt⟩ r * b ⟨d.val, lt_trans d.isLt i.isLt⟩ r := by
    intro r
    rfl
  calc ∑ r, (gsU b i)ᵀ c r * gsU b i r d
      = ∑ r, b ⟨c.val, lt_trans c.isLt i.isLt⟩ r *
          b ⟨d.val, lt_trans d.isLt i.isLt⟩ r :=
        Finset.sum_congr rfl (fun r _ => this r)
    _ = Matrix.dotProduct (b ⟨c.val, lt_trans c.isLt i.isLt⟩)
          (b ⟨d.val, lt_trans d.isLt i.isLt⟩) := rfl
    _ = if (⟨c.val, lt_trans c.isLt i.isLt⟩ : Fin M) =
          ⟨d.val, lt_trans d.isLt i.isLt⟩ then 1 else 0 :=
        horth _ _ (by simp) (by simp)
    _ = if c = d then 1 else 0 := by
        congr 1
        simp [Fin.ext_iff]

/-- With the previously finalized columns orthonormal, the loop's projector
annihilates them: `uⱼ ⬝ (P x) = 0` for every `x` and every `j < i`. -/
theorem gsP_proj {M N : ℕ} (b : Fin M → Vec N) (i : Fin M)
    (horth : ∀ c c' : Fin M, c.val < i.val → c'.val < i.val →
      Matrix.dotProduct (b c) (b c') = if c = c' then 1 else 0)
    (x : Vec N) (j : Fin M) (hj : j.val < i.val) :
    Matrix.dotProduct (b j) ((gsP b i).mulVec x) = 0 := by
  unfold gsP
  rw [gsU_gram b i horth, matInv_one, Matrix.mul_one]
  rw [Matrix.sub_mulVec, Matrix.one_mulVec, Matrix.dotProduct_sub]
  rw [← Matrix.mulVec_mulVec, gsU_mulVec, dot_sum_right]
  have hcollapse : ∀ c : Fin i.val,
      Matrix.dotProduct (b j)
        (((gsU b i)ᵀ.mulVec x) c • b ⟨c.val, lt_trans c.isLt i.isLt⟩) =
      (if (⟨j.val, hj⟩ : Fin i.val) = c then 1 else 0) *
        ((gsU b i)ᵀ.mulVec x) c := by
    intro c
    rw [Matrix.dotProduct_smul, smul_eq_mul,
      horth j ⟨c.val, lt_trans c.isLt i.isLt⟩ hj (by simp)]
    have : (j = (⟨c.val, lt_trans c.isLt i.isLt⟩ : Fin M)) ↔
        ((⟨j.val, hj⟩ : Fin i.val) = c) := by
      simp [Fin.ext_iff]
    rw [if_congr this rfl rfl]
    ring
  rw [Finset.sum_congr rfl (fun c _ => hcollapse c)]
  simp only [ite_mul, one_mul, zero_mul]
  rw [Finset.sum_ite_eq (Finset.univ : Finset (Fin i.val)) ⟨j.val, hj⟩
    (fun c => ((gsU b i)ᵀ.mulVec x) c)]
  simp only [Finset.mem_univ, if_true]
  have hz : ((gsU b i)ᵀ.mulVec x) ⟨j.val, hj⟩ = Matrix.dotProduct (b j) x := rfl
  rw [hz]
  ring

theorem orthogonalize_zero {M N : ℕ} (sqrtQ : ℚ → ℚ) (vecs : Fin M → Vec N) :
    orthogonalize sqrtQ vecs 0 = gsAt sqrtQ vecs (M - 1) := by
  unfold orthogonalize gsAt
  rw [if_pos rfl]
  rw [List.take_of_length_le (by rw [finRange_drop_length])]

/-- Normalizing by a square root satisfying the `sqrtOK` contract yields a
unit vector. -/
theorem nrm_unit {N : ℕ} (sqrtQ : ℚ → ℚ) (u : Vec N)
    (h : sqrtOK sqrtQ (Matrix.dotProduct u u)) :
    Matrix.dotProduct (nrm sqrtQ u) (nrm sqrtQ u) = 1 := by
  obtain ⟨hpos, hsq⟩ := h
  unfold nrm
  rw [Matrix.smul_dotProduct, Matrix.dotProduct_smul, smul_eq_mul, smul_eq_mul]
  set q : ℚ := Matrix.dotProduct u u with hq
  set s : ℚ := sqrtQ q with hs
  have hne : s ≠ 0 := ne_of_gt hpos
  rw [← hsq]
  field_simp

/-- Claim C8: for `start = 0` and a seedable first vector, the rows of
`orthogonalize`'s output are pairwise orthogonal and unit norm, and they
span exactly the span of the input rows.  Each `sqrtOK` hypothesis states
the `math.sqrt` contract at one of the two norms the loop consumes per
column; for a linearly independent input (`C ≤ B`) the real square root
satisfies all of them, and conversely a dependent input vector makes the
projected norm zero and the corresponding hypothesis unsatisfiable. -/
theorem claim_C8 {M N : ℕ} (sqrtQ : ℚ → ℚ) (vecs : Fin M → Vec N)
    (hM : 0 < M) (hMN : M ≤ N)
    (h0 : sqrtOK sqrtQ (Matrix.dotProduct (vecs ⟨0, hM⟩) (vecs ⟨0, hM⟩)))
    (hstep : ∀ k : Fin M, 0 < k.val →
      sqrtOK sqrtQ (Matrix.dotProduct (gsAt sqrtQ vecs (k.val - 1) k)
        (gsAt sqrtQ vecs (k.val - 1) k)) ∧
      sqrtOK sqrtQ (Matrix.dotProduct
        ((gsP (gsAt sqrtQ vecs (k.val - 1)) k).mulVec
          (nrm sqrtQ (gsAt sqrtQ vecs (k.val - 1) k)))
        ((gsP (gsAt sqrtQ vecs (k.val - 1)) k).mulVec
          (nrm sqrtQ (gsAt sqrtQ vecs (k.val - 1) k))))) :
    (∀ i j : Fin M,
      Matrix.dotProduct (orthogonalize sqrtQ vecs 0 i)
        (orthogonalize sqrtQ vecs 0 j) = if i = j then 1 else 0) ∧
    Submodule.span ℚ (Set.range (orthogonalize sqrtQ vecs 0)) =
      Submodule.span ℚ (Set.range vecs) := by
  have main : ∀ k : ℕ, k < M →
      ((∀ i j : Fin M, i.val ≤ k → j.val ≤ k →
        Matrix.dotProduct (gsAt sqrtQ vecs k i) (gsAt sqrtQ vecs k j) =
          if i = j then 1 else 0) ∧
       (∀ i : Fin M, i.val ≤ k →
        gsAt sqrtQ vecs k i ∈ Submodule.span ℚ (Set.range vecs)) ∧
       (∀ i : Fin M, i.val ≤ k →
        vecs i ∈ Submodule.span ℚ
          ((fun j => gsAt sqrtQ vecs k j) '' {j : Fin M | j.val ≤ k}))) := by
    intro k
    induction k with
    | zero =>
      intro _
      have hz : gsAt sqrtQ vecs 0 = Function.update vecs ⟨0, hM⟩
          (nrm sqrtQ (vecs ⟨0, hM⟩)) := by
        rw [gsAt_zero]
        unfold gsSeed
        rw [dif_pos hM]
      have hne : sqrtQ (Matrix.dotProduct (vecs ⟨0, hM⟩) (vecs ⟨0, hM⟩)) ≠ 0 :=
        ne_of_gt h0.1
      refine ⟨?_, ?_, ?_⟩
      · intro i j hi hj
        have hi0 : i = ⟨0, hM⟩ := Fin.ext (by simp [Nat.le_zero.mp hi])
        have hj0 : j = ⟨0, hM⟩ := Fin.ext (by simp [Nat.le_zero.mp hj])
        subst hi0
        subst hj0
        rw [if_pos rfl, hz, Function.update_same]
        exact nrm_unit sqrtQ _ h0
      · intro i hi
        have hi0 : i = ⟨0, hM⟩ := Fin.ext (by simp [Nat.le_zero.mp hi])
        subst hi0
        rw [hz, Function.update_same]
        unfold nrm
        exact Submodule.smul_mem _ _ (Submodule.subset_span ⟨⟨0, hM⟩, rfl⟩)
      · intro i hi
        have hi0 : i = ⟨0, hM⟩ := Fin.ext (by simp [Nat.le_zero.mp hi])
        subst hi0
        have hv : vecs ⟨0, hM⟩ =
            sqrtQ (Matrix.dotProduct (vecs ⟨0, hM⟩) (vecs ⟨0, hM⟩)) •
              gsAt sqrtQ vecs 0 ⟨0, hM⟩ := by
          rw [hz, Function.update_same]
          unfold nrm
          rw [smul_smul]
          rw [mul_inv_cancel₀ hne, one_smul]
        rw [hv]
        refine Submodule.smul_mem _ _ (Submodule.subset_span ?_)
        exact ⟨⟨0, hM⟩, by simp, rfl⟩
    | succ m ih =>
      intro hm1
      have hm : m < M := by omega
      obtain ⟨ihO, ihM1, ihM2⟩ := ih hm
      set i0 : Fin M := ⟨m + 1, hm1⟩ with hi0def
      have hi0val : i0.val = m + 1 := rfl
      set b : Fin M → Vec N := gsAt sqrtQ vecs m with hbdef
      have hstepi := hstep i0 (by omega)
      rw [show i0.val - 1 = m from by omega] at hstepi
      obtain ⟨hsOK1, hsOK2⟩ := hstepi
      have horth : ∀ c d : Fin M, c.val < i0.val → d.val < i0.val →
          Matrix.dotProduct (b c) (b d) = if c = d then 1 else 0 := by
        intro c d hc hd
        exact ihO c d (by omega) (by omega)
      set v : Vec N := nrm sqrtQ (b i0) with hvdef
      set w : Vec N := (gsP b i0).mulVec v with hwdef
      set s2 : ℚ := sqrtQ (Matrix.dotProduct w w) with hs2def
      have hs2ne : s2 ≠ 0 := ne_of_gt hsOK2.1
      have hsucc : gsAt sqrtQ vecs (m + 1) =
          Function.update b i0 (nrm sqrtQ w) := by
        rw [gsAt_succ sqrtQ vecs m hm1]
        rfl
      have hproj : ∀ j : Fin M, j.val < i0.val →
          Matrix.dotProduct (b j) w = 0 := by
        intro j hj
        exact gsP_proj b i0 horth v j hj
      have huntouched : b i0 = vecs i0 :=
        gsAt_untouched sqrtQ vecs m i0 (by omega)
      have hs1ne : sqrtQ (Matrix.dotProduct (b i0) (b i0)) ≠ 0 :=
        ne_of_gt hsOK1.1
      have hval_le : ∀ j : Fin M, j.val ≤ m + 1 → j ≠ i0 → j.val ≤ m := by
        intro j hj hne2
        by_contra hgt
        push_neg at hgt
        exact hne2 (Fin.ext (by omega))
      have hw_expand : w = v - ∑ c : Fin i0.val,
          (((gsU b i0)ᵀ).mulVec v) c • b ⟨c.val, lt_trans c.isLt i0.isLt⟩ := by
        rw [hwdef]
        unfold gsP
        rw [gsU_gram b i0 horth, matInv_one, Matrix.mul_one,
          Matrix.sub_mulVec, Matrix.one_mulVec, ← Matrix.mulVec_mulVec,
          gsU_mulVec]
      refine ⟨?_, ?_, ?_⟩
      · -- orthonormality of columns 0..m+1
        intro i j hi hj
        rw [hsucc]
        by_cases hieq : i = i0
        · by_cases hjeq : j = i0
          · subst hieq
            subst hjeq
            rw [Function.update_same, if_pos rfl]
            exact nrm_unit sqrtQ w hsOK2
          · subst hieq
            rw [Function.update_same, Function.update_noteq hjeq,
              if_neg (fun hh => hjeq hh.symm)]
            have hjm : j.val < i0.val := by
              have := hval_le j hj hjeq
              omega
            unfold nrm
            rw [Matrix.smul_dotProduct, smul_eq_mul,
              Matrix.dotProduct_comm w (b j), hproj j hjm]
            ring
        · by_cases hjeq : j = i0
          · subst hjeq
            rw [Function.update_same, Function.update_noteq hieq,
              if_neg hieq]
            have him : i.val < i0.val := by
              have := hval_le i hi hieq
              omega
            unfold nrm
            rw [Matrix.dotProduct_smul, smul_eq_mul, hproj i him]
            ring
          · rw [Function.update_noteq hieq, Function.update_noteq hjeq]
            exact ihO i j (hval_le i hi hieq) (hval_le j hj hjeq)
      · -- columns 0..m+1 lie in the span of the input rows
        intro i hi
        rw [hsucc]
        by_cases hieq : i = i0
        · subst hieq
          rw [Function.update_same]
          unfold nrm
          refine Submodule.smul_mem _ _ ?_
          rw [hw_expand]
          refine Submodule.sub_mem _ ?_ ?_
          · rw [hvdef]
            unfold nrm
            refine Submodule.smul_mem _ _ ?_
            rw [huntouched]
            exact Submodule.subset_span ⟨i0, rfl⟩
          · refine Submodule.sum_mem _ (fun c _ => ?_)
            refine Submodule.smul_mem _ _ ?_
            refine ihM1 ⟨c.val, lt_trans c.isLt i0.isLt⟩ ?_
            show c.val ≤ m
            have := c.isLt
            omega
        · rw [Function.update_noteq hieq]
          exact ihM1 i (hval_le i hi hieq)
      · -- the input rows 0..m+1 lie in the span of columns 0..m+1
        intro i hi
        by_cases hieq : i = i0
        · subst hieq
          have hb : vecs i0 =
              sqrtQ (Matrix.dotProduct (b i0) (b i0)) • v := by
            rw [hvdef]
            unfold nrm
            rw [smul_smul, mul_inv_cancel₀ hs1ne, one_smul, huntouched]
          have hv_expand : v = w + ∑ c : Fin i0.val,
              (((gsU b i0)ᵀ).mulVec v) c •
                b ⟨c.val, lt_trans c.isLt i0.isLt⟩ := by
            rw [hw_expand]
            abel
          have hwcol : w = s2 • gsAt sqrtQ vecs (m + 1) i0 := by
            rw [hsucc, Function.update_same]
            unfold nrm
            rw [smul_smul, ← hs2def, mul_inv_cancel₀ hs2ne, one_smul]
          have hbc : ∀ c : Fin i0.val,
              b ⟨c.val, lt_trans c.isLt i0.isLt⟩ =
                gsAt sqrtQ vecs (m + 1) ⟨c.val, lt_trans c.isLt i0.isLt⟩ := by
            intro c
            rw [hsucc, Function.update_noteq]
            refine Fin.ne_of_val_ne ?_
            show c.val ≠ i0.val
            have := c.isLt
            omega
          rw [hb, hv_expand, hwcol]
          refine Submodule.smul_mem _ _ ?_
          refine Submodule.add_mem _ ?_ ?_
          · refine Submodule.smul_mem _ _ (Submodule.subset_span ?_)
            refine ⟨i0, ?_, rfl⟩
            simp only [Set.mem_setOf_eq]
            omega
          · refine Submodule.sum_mem _ (fun c _ => ?_)
            rw [hbc c]
            refine Submodule.smul_mem _ _ (Submodule.subset_span ?_)
            refine ⟨⟨c.val, lt_trans c.isLt i0.isLt⟩, ?_, rfl⟩
            simp only [Set.mem_setOf_eq]
            show c.val ≤ m + 1
            have := c.isLt
            omega
        · have him : i.val ≤ m := hval_le i hi hieq
          refine Submodule.span_mono ?_ (ihM2 i him)
          rintro x ⟨j, hj, rfl⟩
          simp only [Set.mem_setOf_eq] at hj
          refine ⟨j, ?_, ?_⟩
          · simp only [Set.mem_setOf_eq]
            omega
          · show gsAt sqrtQ vecs (m + 1) j = b j
            rw [hsucc]
            rw [Function.update_noteq]
            refine Fin.ne_of_val_ne ?_
            omega
  obtain ⟨hO, h1, h2⟩ := main (M - 1) (by omega)
  rw [orthogonalize_zero]
  constructor
  · intro i j
    exact hO i j (by have := i.isLt; omega) (by have := j.isLt; omega)
  · refine le_antisymm ?_ ?_
    · rw [Submodule.span_le]
      rintro x ⟨i, rfl⟩
      exact h1 i (by have := i.isLt; omega)
    · rw [Submodule.span_le]
      rintro x ⟨i, rfl⟩
      refine Submodule.span_mono ?_ (h2 i (by have := i.isLt; omega))
      rintro y ⟨j, _, rfl⟩
      exact ⟨j, rfl⟩

/-- Witness for C8: a single row `[3, 4]` with the square-root table
`25 ↦ 5`; the loop body is never entered, and the seed normalization
produces the unit vector `[3/5, 4/5]`. -/
theorem claim_C8_witness :
    sqrtOK sqrtC8 (Matrix.dotProduct (vecsC8 ⟨0, Nat.one_pos⟩)
      (vecsC8 ⟨0, Nat.one_pos⟩)) ∧
    ((∀ i j : Fin 1,
        Matrix.dotProduct (orthogonalize sqrtC8 vecsC8 0 i)
          (orthogonalize sqrtC8 vecsC8 0 j) = if i = j then 1 else 0) ∧
      Submodule.span ℚ (Set.range (orthogonalize sqrtC8 vecsC8 0)) =
        Submodule.span ℚ (Set.range vecsC8)) := by
  have hdot : Matrix.dotProduct (vecsC8 ⟨0, Nat.one_pos⟩)
      (vecsC8 ⟨0, Nat.one_pos⟩) = 25 := by
    norm_num [vecsC8, Matrix.dotProduct, Fin.sum_univ_two]
  have h0 : sqrtOK sqrtC8 (Matrix.dotProduct (vecsC8 ⟨0, Nat.one_pos⟩)
      (vecsC8 ⟨0, Nat.one_pos⟩)) := by
    rw [hdot]
    unfold sqrtOK sqrtC8
    norm_num
  have hstep : ∀ k : Fin 1, 0 < k.val →
      sqrtOK sqrtC8 (Matrix.dotProduct (gsAt sqrtC8 vecsC8 (k.val - 1) k)
        (gsAt sqrtC8 vecsC8 (k.val - 1) k)) ∧
      sqrtOK sqrtC8 (Matrix.dotProduct
        ((gsP (gsAt sqrtC8 vecsC8 (k.val - 1)) k).mulVec
          (nrm sqrtC8 (gsAt sqrtC8 vecsC8 (k.val - 1) k)))
        ((gsP (gsAt sqrtC8 vecsC8 (k.val - 1)) k).mulVec
          (nrm sqrtC8 (gsAt sqrtC8 vecsC8 (k.val - 1) k)))) := by
    intro k hk
    have := k.isLt
    omega
  exact ⟨h0, claim_C8 sqrtC8 vecsC8 Nat.one_pos (by omega) h0 hstep⟩

/-! ### Claim C4: `linearDiscriminant` -/

theorem csW4_eq : ldaCovW cs4 = 1 := by
  ext i j
  fin_cases i <;> fin_cases j <;>
    norm_num [ldaCovW, ldaN, cs4, cls2z, Matrix.smul_apply, Matrix.add_apply,
      Matrix.one_apply, Matrix.zero_apply]

theorem csB4_eq : ldaCovB cs4 = 0 := by
  have hmean : ldaMean cs4 = ![0, 0] := by
    funext i
    fin_cases i <;>
      norm_num [ldaMean, ldaN, cs4, cls2z, Pi.smul_apply, Pi.add_apply]
  unfold ldaCovB
  rw [hmean]
  ext i j
  fin_cases i <;> fin_cases j <;>
    norm_num [ldaN, cs4, cls2z, outerProd, Matrix.smul_apply,
      Matrix.add_apply, Matrix.zero_apply, Pi.sub_apply]

theorem csA4_eq : ldaEigMat cs4 = 0 := by
  unfold ldaEigMat
  rw [csB4_eq, Matrix.mul_zero]

theorem csW3_eq : ldaCovW cs3 = 1 := by
  ext i j
  fin_cases i <;> fin_cases j <;>
    norm_num [ldaCovW, ldaN, cs3, cls2o, Matrix.smul_apply, Matrix.add_apply,
      Matrix.one_apply, Matrix.zero_apply]

theorem csB3_eq : ldaCovB cs3 = 0 := by
  have hmean : ldaMean cs3 = ![1, 1] := by
    funext i
    fin_cases i <;>
      norm_num [ldaMean, ldaN, cs3, cls2o, Pi.smul_apply, Pi.add_apply]
  unfold ldaCovB
  rw [hmean]
  ext i j
  fin_cases i <;> fin_cases j <;>
    norm_num [ldaN, cs3, cls2o, outerProd, Matrix.smul_apply,
      Matrix.add_apply, Matrix.zero_apply, Pi.sub_apply]

theorem csA3_eq : ldaEigMat cs3 = 0 := by
  unfold ldaEigMat
  rw [csB3_eq, Matrix.mul_zero]

/-- The rescaled eigenvector rows `linearDiscriminant` produces on `cs3`
with the eigendecomposition `eig3` and square roots `sqrt3`. -/
theorem cs3_rows : (ldaOut eig3 sqrt3 cs3).2 = [![1, 0], ![(3:ℚ)/5, 4/5]] := by
  unfold ldaOut ldaRawPairs ldaRank
  dsimp only
  rw [show cs3.length - 1 = 2 from by norm_num [cs3]]
  rw [show (eig3 (ldaEigMat cs3)).2 = !![1, 3; 0, 4] from rfl]
  rw [List.ofFn_succ, List.ofFn_succ, List.ofFn_zero]
  simp only [List.take_succ_cons, List.take_zero, List.take_nil, List.map_cons,
    List.map_nil]
  have hc0 : (!![1, 3; 0, 4] : Mat 2 2)ᵀ 0 = ![1, 0] := by
    funext j
    fin_cases j <;> simp [Matrix.transpose_apply]
  have hc1 : (!![1, 3; 0, 4] : Mat 2 2)ᵀ (Fin.succ 0) = ![3, 4] := by
    funext j
    fin_cases j <;> simp [Matrix.transpose_apply]
  rw [hc0, hc1, csW3_eq, Matrix.one_mulVec, Matrix.one_mulVec]
  have hd0 : Matrix.dotProduct ![(1:ℚ), 0] ![1, 0] = 1 := by
    norm_num [Matrix.dotProduct, Fin.sum_univ_two]
  have hd1 : Matrix.dotProduct ![(3:ℚ), 4] ![3, 4] = 25 := by
    norm_num [Matrix.dotProduct, Fin.sum_univ_two]
  rw [hd0, hd1]
  have hs0 : sqrt3 1 = 1 := by norm_num [sqrt3]
  have hs25 : sqrt3 25 = 5 := by norm_num [sqrt3]
  rw [hs0, hs25]
  refine congrArg₂ _ ?_ (congrArg₂ _ ?_ rfl)
  · funext j
    fin_cases j <;> norm_num
  · funext j
    fin_cases j <;> norm_num

/-- Claim C4, counterexample.  Two failures of the claim as stated, both on
classes with valid statistics and invertible `Cw` and with oracle outputs
that are genuine eigendecompositions of `inv(Cw)·Cb` (which is the zero
matrix in both instances, so any basis with zero eigenvalues qualifies —
in particular numpy's output):
(1) with `C = 4` classes in `B = 2` bands, only `min(C−1, B) = 2` pairs are
returned, not `C − 1 = 3`;
(2) with `C = 3` equal-mean classes and eigenvector columns `(1,0)`,
`(3,4)` (legal, the eigenvalue 0 is repeated), the rescaled
`V·Cw·Vᵗ` has off-diagonal entry `3/5 ≠ 0`, not the identity. -/
theorem claim_C4_counterexample :
    (2 ≤ cs4.length ∧ (ldaCovW cs4).det ≠ 0 ∧ ldaEigMat cs4 = 0 ∧
      (linearDiscriminant eig4 sqrtId cs4).1.1.length ≠ cs4.length - 1) ∧
    (2 ≤ cs3.length ∧ (ldaCovW cs3).det ≠ 0 ∧ ldaEigMat cs3 = 0 ∧
      (3 : ℚ) / 5 ≠ 0 ∧
      Matrix.dotProduct ((linearDiscriminant eig3 sqrt3 cs3).1.2.getD 0 0)
        ((ldaCovW cs3).mulVec
          ((linearDiscriminant eig3 sqrt3 cs3).1.2.getD 1 0)) = 3 / 5) := by
  refine ⟨⟨by norm_num [cs4], ?_, csA4_eq, ?_⟩,
          ⟨by norm_num [cs3], ?_, csA3_eq, by norm_num, ?_⟩⟩
  · rw [csW4_eq]
    simp
  · have hl : (ldaOut eig4 sqrtId cs4).1.length = 2 := by
      unfold ldaOut ldaRawPairs ldaRank
      dsimp only
      simp [cs4]
    show (ldaOut eig4 sqrtId cs4).1.length ≠ cs4.length - 1
    rw [hl]
    norm_num [cs4]
  · rw [csW3_eq]
    simp
  · show Matrix.dotProduct ((ldaOut eig3 sqrt3 cs3).2.getD 0 0)
      ((ldaCovW cs3).mulVec ((ldaOut eig3 sqrt3 cs3).2.getD 1 0)) = 3 / 5
    rw [cs3_rows, csW3_eq, Matrix.one_mulVec]
    show Matrix.dotProduct ![(1:ℚ), 0] ![3/5, 4/5] = 3/5
    norm_num [Matrix.dotProduct, Fin.sum_univ_two]

theorem ldaCovW_transpose {B : ℕ} (cs : List (ClassStats B))
    (hsym : ∀ c ∈ cs, (c.cov)ᵀ = c.cov) :
    (ldaCovW cs)ᵀ = ldaCovW cs := by
  unfold ldaCovW
  rw [Matrix.transpose_smul, Matrix.transpose_list_sum, List.map_map]
  have hmap : List.map (Matrix.transpose ∘ fun s : ClassStats B =>
        ((s.size : ℚ) - 1) • s.cov) cs =
      List.map (fun s : ClassStats B => ((s.size : ℚ) - 1) • s.cov) cs := by
    refine List.map_congr_left (fun c hc => ?_)
    show (((c.size : ℚ) - 1) • c.cov)ᵀ = ((c.size : ℚ) - 1) • c.cov
    rw [Matrix.transpose_smul, hsym c hc]
  rw [hmap]

theorem ldaCovB_transpose {B : ℕ} (cs : List (ClassStats B)) :
    (ldaCovB cs)ᵀ = ldaCovB cs := by
  unfold ldaCovB
  rw [Matrix.transpose_smul, Matrix.transpose_list_sum, List.map_map]
  have hmap : List.map (Matrix.transpose ∘ fun s : ClassStats B =>
        (s.size : ℚ) • outerProd (s.mean - ldaMean cs) (s.mean - ldaMean cs)) cs =
      List.map (fun s : ClassStats B =>
        (s.size : ℚ) • outerProd (s.mean - ldaMean cs) (s.mean - ldaMean cs)) cs := by
    refine List.map_congr_left (fun c _ => ?_)
    show ((c.size : ℚ) • outerProd (c.mean - ldaMean cs) (c.mean - ldaMean cs))ᵀ =
      (c.size : ℚ) • outerProd (c.mean - ldaMean cs) (c.mean - ldaMean cs)
    rw [Matrix.transpose_smul, outerProd_transpose]
  rw [hmap]

/-- Eigenvectors of `inv(Cw)·Cb` for distinct eigenvalues are
`Cw`-orthogonal when `Cw` and `Cb` are symmetric and `Cw` is invertible. -/
theorem gen_eig_orth {B : ℕ} (Cw Cb : Mat B B) (hdet : Cw.det ≠ 0)
    (hCw : Cwᵀ = Cw) (hCb : Cbᵀ = Cb) (u v : Vec B) (au av : ℚ)
    (hu : (matInv Cw * Cb).mulVec u = au • u)
    (hv : (matInv Cw * Cb).mulVec v = av • v)
    (hne : au ≠ av) :
    Matrix.dotProduct u (Cw.mulVec v) = 0 := by
  have hfact : Cw * (matInv Cw * Cb) = Cb := by
    rw [← mul_assoc, mul_matInv Cw hdet, one_mul]
  have hbu : Cb.mulVec u = au • Cw.mulVec u := by
    rw [← hfact, ← Matrix.mulVec_mulVec, hu, Matrix.mulVec_smul]
  have hbv : Cb.mulVec v = av • Cw.mulVec v := by
    rw [← hfact, ← Matrix.mulVec_mulVec, hv, Matrix.mulVec_smul]
  have hswap : ∀ M : Mat B B, Mᵀ = M → ∀ x y : Vec B,
      Matrix.dotProduct x (M.mulVec y) = Matrix.dotProduct y (M.mulVec x) := by
    intro M hM x y
    rw [Matrix.dotProduct_mulVec, ← Matrix.mulVec_transpose, hM]
    exact Matrix.dotProduct_comm _ _
  have h1 : Matrix.dotProduct u (Cb.mulVec v) =
      av * Matrix.dotProduct u (Cw.mulVec v) := by
    rw [hbv, Matrix.dotProduct_smul, smul_eq_mul]
  have h2 : Matrix.dotProduct u (Cb.mulVec v) =
      au * Matrix.dotProduct u (Cw.mulVec v) := by
    rw [hswap Cb hCb u v, hbu, Matrix.dotProduct_smul, smul_eq_mul,
      hswap Cw hCw v u]
  have h3 : (au - av) * Matrix.dotProduct u (Cw.mulVec v) = 0 := by
    rw [sub_mul]
    linarith [h1, h2]
  rcases mul_eq_zero.mp h3 with h | h
  · exact absurd (sub_eq_zero.mp h) hne
  · exact h

/-- Claim C4, amended: for `C ≥ 2` classes with valid symmetric statistics,
invertible within-class covariance, `C − 1 ≤ B`, an oracle output
satisfying numpy's eigendecomposition contract on the first `C − 1`
columns with pairwise-distinct eigenvalues there, and `math.sqrt` correct
and positive on the diagonal scaling factors, `linearDiscriminant` returns
exactly `C − 1` eigenvalue/eigenvector pairs and the rescaled rows satisfy
`V·Cw·Vᵗ = I` exactly. -/
theorem claim_C4_amended {B : ℕ} (eig : Mat B B → Vec B × Mat B B)
    (sqrtQ : ℚ → ℚ) (cs : List (ClassStats B))
    (hC : 2 ≤ cs.length) (hrank : cs.length - 1 ≤ B)
    (hdet : (ldaCovW cs).det ≠ 0)
    (hsym : ∀ c ∈ cs, (c.cov)ᵀ = c.cov)
    (heig : ∀ i : Fin B, i.val < cs.length - 1 →
      (ldaEigMat cs).mulVec (fun r => (eig (ldaEigMat cs)).2 r i) =
        (eig (ldaEigMat cs)).1 i • fun r => (eig (ldaEigMat cs)).2 r i)
    (hdis : ∀ i j : Fin B, i.val < cs.length - 1 → j.val < cs.length - 1 →
      i ≠ j → (eig (ldaEigMat cs)).1 i ≠ (eig (ldaEigMat cs)).1 j)
    (hsq : ∀ i : Fin B, i.val < cs.length - 1 →
      sqrtOK sqrtQ (Matrix.dotProduct (fun r => (eig (ldaEigMat cs)).2 r i)
        ((ldaCovW cs).mulVec (fun r => (eig (ldaEigMat cs)).2 r i)))) :
    (linearDiscriminant eig sqrtQ cs).1.1.length = cs.length - 1 ∧
    (linearDiscriminant eig sqrtQ cs).1.2.length = cs.length - 1 ∧
    (∀ (i j : ℕ) (hi : i < (linearDiscriminant eig sqrtQ cs).1.2.length)
       (hj : j < (linearDiscriminant eig sqrtQ cs).1.2.length),
      Matrix.dotProduct ((linearDiscriminant eig sqrtQ cs).1.2.get ⟨i, hi⟩)
        ((ldaCovW cs).mulVec
          ((linearDiscriminant eig sqrtQ cs).1.2.get ⟨j, hj⟩)) =
        if i = j then 1 else 0) := by
  have hlen1 : (ldaOut eig sqrtQ cs).1.length = cs.length - 1 := by
    unfold ldaOut ldaRawPairs ldaRank
    dsimp only
    rw [List.length_take, List.length_ofFn]
    exact min_eq_left hrank
  have hlen2 : (ldaOut eig sqrtQ cs).2.length = cs.length - 1 := by
    unfold ldaOut ldaRawPairs ldaRank
    dsimp only
    rw [List.length_map, List.length_take, List.length_ofFn]
    exact min_eq_left hrank
  refine ⟨hlen1, hlen2, ?_⟩
  have hget : ∀ (i : ℕ) (hi : i < (ldaOut eig sqrtQ cs).2.length) (hiB : i < B),
      (ldaOut eig sqrtQ cs).2.get ⟨i, hi⟩ =
        (sqrtQ (Matrix.dotProduct (fun r => (eig (ldaEigMat cs)).2 r ⟨i, hiB⟩)
          ((ldaCovW cs).mulVec
            (fun r => (eig (ldaEigMat cs)).2 r ⟨i, hiB⟩))))⁻¹ •
          (fun r => (eig (ldaEigMat cs)).2 r ⟨i, hiB⟩) := by
    intro i hi hiB
    have hi2 := hi
    unfold ldaOut ldaRawPairs ldaRank at hi2 ⊢
    dsimp only at hi2 ⊢
    rw [List.get_eq_getElem, List.getElem_map, List.getElem_take,
      List.getElem_ofFn]
    rfl
  intro i j hi hj
  replace hi : i < (ldaOut eig sqrtQ cs).2.length := hi
  replace hj : j < (ldaOut eig sqrtQ cs).2.length := hj
  show Matrix.dotProduct ((ldaOut eig sqrtQ cs).2.get ⟨i, hi⟩)
    ((ldaCovW cs).mulVec ((ldaOut eig sqrtQ cs).2.get ⟨j, hj⟩)) =
    if i = j then 1 else 0
  have hir : i < cs.length - 1 := by rw [hlen2] at hi; exact hi
  have hjr : j < cs.length - 1 := by rw [hlen2] at hj; exact hj
  have hiB : i < B := lt_of_lt_of_le hir hrank
  have hjB : j < B := lt_of_lt_of_le hjr hrank
  rw [hget i hi hiB, hget j hj hjB]
  set u : Vec B := fun r => (eig (ldaEigMat cs)).2 r ⟨i, hiB⟩ with hu
  set v : Vec B := fun r => (eig (ldaEigMat cs)).2 r ⟨j, hjB⟩ with hv
  rw [Matrix.mulVec_smul, Matrix.smul_dotProduct, Matrix.dotProduct_smul,
    smul_eq_mul, smul_eq_mul]
  by_cases hij : i = j
  · subst hij
    rw [if_pos rfl]
    obtain ⟨hpos, hsqq⟩ := hsq ⟨i, hiB⟩ (by exact hir)
    have hvu : v = u := by
      rw [hu, hv]
    rw [hvu]
    set q : ℚ := Matrix.dotProduct u ((ldaCovW cs).mulVec u) with hq
    set sq : ℚ := sqrtQ q with hsqdef
    have hne : sq ≠ 0 := ne_of_gt hpos
    rw [← hsqq]
    field_simp
  · rw [if_neg hij]
    have horth : Matrix.dotProduct u ((ldaCovW cs).mulVec v) = 0 := by
      refine gen_eig_orth (ldaCovW cs) (ldaCovB cs) hdet
        (ldaCovW_transpose cs hsym) (ldaCovB_transpose cs) u v
        ((eig (ldaEigMat cs)).1 ⟨i, hiB⟩) ((eig (ldaEigMat cs)).1 ⟨j, hjB⟩)
        (heig ⟨i, hiB⟩ hir) (heig ⟨j, hjB⟩ hjr) ?_
      refine hdis ⟨i, hiB⟩ ⟨j, hjB⟩ hir hjr ?_
      exact Fin.ne_of_val_ne hij
    rw [horth]
    ring

/-- Witness for C4 (amended) at two 1-band classes and the genuine
eigendecomposition of `inv(Cw)·Cb = [[1]]`. -/
theorem claim_C4_witness :
    ((ldaCovW csW).det ≠ 0 ∧
     (∀ i : Fin 1, i.val < csW.length - 1 →
       (ldaEigMat csW).mulVec (fun r => (eigW (ldaEigMat csW)).2 r i) =
         (eigW (ldaEigMat csW)).1 i • fun r => (eigW (ldaEigMat csW)).2 r i) ∧
     (∀ i : Fin 1, i.val < csW.length - 1 →
       sqrtOK sqrtId (Matrix.dotProduct
         (fun r => (eigW (ldaEigMat csW)).2 r i)
         ((ldaCovW csW).mulVec (fun r => (eigW (ldaEigMat csW)).2 r i))))) ∧
    ((linearDiscriminant eigW sqrtId csW).1.1.length = csW.length - 1 ∧
     (linearDiscriminant eigW sqrtId csW).1.2.length = csW.length - 1 ∧
     (∀ (i j : ℕ) (hi : i < (linearDiscriminant eigW sqrtId csW).1.2.length)
        (hj : j < (linearDiscriminant eigW sqrtId csW).1.2.length),
       Matrix.dotProduct ((linearDiscriminant eigW sqrtId csW).1.2.get ⟨i, hi⟩)
         ((ldaCovW csW).mulVec
           ((linearDiscriminant eigW sqrtId csW).1.2.get ⟨j, hj⟩)) =
         if i = j then 1 else 0)) := by
  have hWw : ldaCovW csW = 1 := by
    ext i j
    fin_cases i <;> fin_cases j <;>
      norm_num [ldaCovW, ldaN, csW, Matrix.smul_apply, Matrix.add_apply,
        Matrix.one_apply, Matrix.zero_apply]
  have hmeanW : ldaMean csW = ![1] := by
    funext i
    fin_cases i <;>
      norm_num [ldaMean, ldaN, csW, Pi.smul_apply, Pi.add_apply]
  have hBw : ldaCovB csW = 1 := by
    unfold ldaCovB
    rw [hmeanW]
    ext i j
    fin_cases i <;> fin_cases j <;>
      norm_num [ldaN, csW, outerProd, Matrix.smul_apply, Matrix.add_apply,
        Matrix.one_apply, Matrix.zero_apply, Pi.sub_apply]
  have hAw : ldaEigMat csW = 1 := by
    unfold ldaEigMat
    rw [hWw, hBw, matInv_one, Matrix.one_mul]
  have hdet : (ldaCovW csW).det ≠ 0 := by
    rw [hWw]
    simp
  have hsym : ∀ c ∈ csW, (c.cov)ᵀ = c.cov := by
    intro c hc
    ext i j
    fin_cases i
    fin_cases j
    rfl
  have heig : ∀ i : Fin 1, i.val < csW.length - 1 →
      (ldaEigMat csW).mulVec (fun r => (eigW (ldaEigMat csW)).2 r i) =
        (eigW (ldaEigMat csW)).1 i • fun r => (eigW (ldaEigMat csW)).2 r i := by
    intro i _
    rw [hAw, Matrix.one_mulVec]
    show (fun r => (1 : Mat 1 1) r i) = (1 : ℚ) • fun r => (1 : Mat 1 1) r i
    rw [one_smul]
  have hdis : ∀ i j : Fin 1, i.val < csW.length - 1 → j.val < csW.length - 1 →
      i ≠ j → (eigW (ldaEigMat csW)).1 i ≠ (eigW (ldaEigMat csW)).1 j := by
    intro i j _ _ hne
    exact absurd (Subsingleton.elim i j) hne
  have hsq : ∀ i : Fin 1, i.val < csW.length - 1 →
      sqrtOK sqrtId (Matrix.dotProduct
        (fun r => (eigW (ldaEigMat csW)).2 r i)
        ((ldaCovW csW).mulVec (fun r => (eigW (ldaEigMat csW)).2 r i))) := by
    intro i _
    have hdot : Matrix.dotProduct
        (fun r => (eigW (ldaEigMat csW)).2 r i)
        ((ldaCovW csW).mulVec (fun r => (eigW (ldaEigMat csW)).2 r i)) = 1 := by
      rw [hWw, Matrix.one_mulVec]
      have hi0 : i = 0 := Subsingleton.elim i 0
      subst hi0
      show Matrix.dotProduct (fun r => (1 : Mat 1 1) r 0)
        (fun r => (1 : Mat 1 1) r 0) = 1
      norm_num [Matrix.dotProduct, Fin.sum_univ_one, Matrix.one_apply]
    rw [hdot]
    unfold sqrtOK sqrtId
    norm_num
  exact ⟨⟨hdet, heig, hsq⟩,
    claim_C4_amended eigW sqrtId csW (by norm_num [csW]) (by norm_num [csW])
      hdet hsym heig hdis hsq⟩

end Spectral



